import Mathlib

/- Shallow embedding of the autojimmy-data update scripts:
   src/scripts/downloader.py and src/scripts/map_update.py.
   Pure string processing is modelled over List Char; Python library
   primitives (str.lower, str.split, str.splitlines, the regex module,
   json/xml serialisation) are modelled by small executable definitions
   whose behaviour on the inputs handled by the scripts matches the
   library behaviour. -/

-- ## String primitives modelling the Python built-ins used by the scripts

/-- Models Python str.lower restricted to ASCII case folding (the sector
names handled by the script are ASCII). -/
def pyLower (s : String) : String := String.mk (s.data.map Char.toLower)

/-- Worker for pySplitChar: splits on a single separator character,
keeping empty parts, as Python str.split(sep) does. -/
def pySplitCharAux (sep : Char) : List Char → List Char → List String
  | [], acc => [String.mk acc.reverse]
  | c :: rest, acc =>
    if c = sep then String.mk acc.reverse :: pySplitCharAux sep rest []
    else pySplitCharAux sep rest (c :: acc)

/-- Models Python str.split(sep) for a one-character separator, as used by
tags.split(" ") in map_update.py. -/
def pySplitChar (sep : Char) (s : String) : List String := pySplitCharAux sep s.data []

/-- Line boundary characters recognised by Python str.splitlines. -/
def pyIsLineBoundary (c : Char) : Bool :=
  c == '\n' || c == '\r' || c == '\x0b' || c == '\x0c' || c == '\x1c' ||
  c == '\x1d' || c == '\x1e' || c == '\x85' || c == ' ' || c == ' '

/-- Worker for pySplitlines. A carriage return followed by a line feed
counts as a single boundary; a trailing boundary does not open a new
empty line. -/
def pySplitlinesAux : List Char → List Char → List (List Char)
  | [], acc => if acc.isEmpty then [] else [acc.reverse]
  | '\r' :: '\n' :: rest, acc => acc.reverse :: pySplitlinesAux rest []
  | c :: rest, acc =>
    if pyIsLineBoundary c then acc.reverse :: pySplitlinesAux rest []
    else pySplitlinesAux rest (c :: acc)

/-- Models Python str.splitlines. -/
def pySplitlines (s : String) : List String := (pySplitlinesAux s.data []).map String.mk

/-- Whitespace characters matched by the Python regex whitespace class for
text patterns. -/
def pyIsSpace (c : Char) : Bool :=
  c == ' ' || c == '\t' || c == '\n' || c == '\r' || c == '\x0b' || c == '\x0c' ||
  c == '\x1c' || c == '\x1d' || c == '\x1e' || c == '\x1f' || c == '\x85' ||
  c == '\xa0' || c == ' ' ||
  (decide (' ' ≤ c) && decide (c ≤ ' ')) ||
  c == ' ' || c == ' ' || c == ' ' || c == ' ' || c == '　'

/-- Consumes exactly n decimal digits, returning the remaining input.
Models a fixed-width digit group of the regex pattern (restricted to the
ASCII digits appearing in the timestamps the script processes). -/
def expectDigits : Nat → List Char → Option (List Char)
  | 0, cs => some cs
  | _ + 1, [] => none
  | n + 1, c :: cs => if c.isDigit then expectDigits n cs else none

/-- Consumes one expected literal character. -/
def expectChar (ch : Char) : List Char → Option (List Char)
  | [] => none
  | c :: cs => if c = ch then some cs else none

/-- Consumes one sign character, plus or minus. -/
def expectSign : List Char → Option (List Char)
  | [] => none
  | c :: cs => if c = '+' ∨ c = '-' then some cs else none

-- ## downloader.py

namespace Downloader

/-- HTTP status codes the Downloader treats as transient. -/
def _RetryHttpCodes : List Nat := [408, 409, 425, 429, 500, 502, 503, 504, 509]

def _initialRetryDelaySeconds : Nat := 5

/-- Outcome of one urlopen request inside downloadToBuffer. -/
inductive NetOutcome
  | success
  | httpError (code : Nat)
deriving DecidableEq

/-- One attempt of urlretrieve inside downloadToFile: either the request
fails with an HTTP status before any data is transferred, or the transfer
runs and the progress hook is invoked once per progress tick with the
value the cancellation callback returns at that tick. -/
inductive FileAttempt
  | httpError (code : Nat)
  | transfer (ticks : List Bool)
deriving DecidableEq

/-- Models the static method _downloadProgressCallback: it raises
_CancelledException exactly when the cancellation callback returned true,
which this model reports as true. -/
def _downloadProgressCallback (isCancelledResult : Bool) : Bool := isCancelledResult

/-- Result of one urlretrieve call as observed by the retry loop. -/
inductive AttemptResult
  | ok
  | cancelledRaised
  | httpRaised (code : Nat)
deriving DecidableEq

/-- Models urlretrieve with the optional progress hook: with a callback
installed, the attempt aborts with _CancelledException as soon as some
progress tick reports cancellation; without a callback the ticks are
never polled. -/
def urlretrieveAttempt (hasCallback : Bool) : FileAttempt → AttemptResult
  | .httpError code => .httpRaised code
  | .transfer ticks =>
    if hasCallback && ticks.any (fun t => _downloadProgressCallback t) then .cancelledRaised
    else .ok

/-- How a downloadToFile call ends: a normal return after a completed
transfer, a normal return after cancellation, or a propagated HTTPError. -/
inductive FileOutcome
  | returnedCompleted
  | returnedCancelled
  | raisedHttp (code : Nat)
deriving DecidableEq

/-- Trace of one downloadToFile call: number of urlretrieve attempts made,
the backoff delays slept before each retry in order, and the outcome. -/
structure FileRun where
  attempts : Nat
  delays : List Nat
  outcome : FileOutcome
deriving DecidableEq

/-- Retry loop of Downloader.downloadToFile (downloader.py lines 43-65).
The arguments mirror the loop state: the remaining retryCount, the current
retryDelay and the index of the next attempt; the oracle gives the result
of each attempt. -/
def downloadToFileLoop (oracle : Nat → FileAttempt) (hasCallback : Bool) :
    Nat → Nat → Nat → FileRun
  | retryCount, retryDelay, attempt =>
    match urlretrieveAttempt hasCallback (oracle attempt) with
    | .ok => ⟨attempt + 1, [], .returnedCompleted⟩
    | .cancelledRaised => ⟨attempt + 1, [], .returnedCancelled⟩
    | .httpRaised code =>
      if code ∈ _RetryHttpCodes then
        match retryCount with
        | 0 => ⟨attempt + 1, [], .raisedHttp code⟩
        | rc + 1 =>
          let r := downloadToFileLoop oracle hasCallback rc (retryDelay * 2) (attempt + 1)
          ⟨r.attempts, retryDelay :: r.delays, r.outcome⟩
      else ⟨attempt + 1, [], .raisedHttp code⟩

/-- Models Downloader.downloadToFile, threading the _downloadCount field:
the count is incremented exactly when urlretrieve returns normally; a
cancelled transfer and a propagated HTTPError leave it unchanged. -/
def downloadToFile (oracle : Nat → FileAttempt) (hasCallback : Bool)
    (retryCount : Nat) (downloadCount : Nat) : FileRun × Nat :=
  let r := downloadToFileLoop oracle hasCallback retryCount _initialRetryDelaySeconds 0
  (r, downloadCount + (if r.outcome = .returnedCompleted then 1 else 0))

/-- How a downloadToBuffer call ends: a normal return of the payload, or
a propagated HTTPError with its status code. -/
inductive BufferResult
  | ok
  | raisedHttp (code : Nat)
deriving DecidableEq

/-- Trace of one downloadToBuffer call. -/
structure BufferRun where
  attempts : Nat
  delays : List Nat
  result : BufferResult
deriving DecidableEq

/-- Retry loop of Downloader.downloadToBuffer (downloader.py lines 72-89). -/
def downloadToBufferLoop (oracle : Nat → NetOutcome) : Nat → Nat → Nat → BufferRun
  | retryCount, retryDelay, attempt =>
    match oracle attempt with
    | .success => ⟨attempt + 1, [], .ok⟩
    | .httpError code =>
      if code ∈ _RetryHttpCodes then
        match retryCount with
        | 0 => ⟨attempt + 1, [], .raisedHttp code⟩
        | rc + 1 =>
          let r := downloadToBufferLoop oracle rc (retryDelay * 2) (attempt + 1)
          ⟨r.attempts, retryDelay :: r.delays, r.result⟩
      else ⟨attempt + 1, [], .raisedHttp code⟩

/-- Models Downloader.downloadToBuffer, threading the _downloadCount
field: the count is incremented exactly on a successful request. -/
def downloadToBuffer (oracle : Nat → NetOutcome) (retryCount : Nat)
    (downloadCount : Nat) : BufferRun × Nat :=
  let r := downloadToBufferLoop oracle retryCount _initialRetryDelaySeconds 0
  (r, downloadCount + (if r.result = .ok then 1 else 0))

end Downloader

-- ## map_update.py constants

def _UniverseFileName : String := "universe.json"
def _SophontsFileName : String := "sophonts.json"
def _AllegiancesFileName : String := "allegiances.json"
def _MainsFileName : String := "mains.json"
def _DataFormatFileName : String := "dataformat.txt"
def _TimestampFileName : String := "timestamp.txt"
def _MilieuList : List String := ["IW", "M0", "M990", "M1105", "M1120", "M1201", "M1248", "M1900"]
def _MinMilieuFiles : Nat := 3
def _DataFormatVersion : String := "4.0"

/-- Characters illegal in Windows file names. -/
def _WindowsIllegalCharacters : List Char := ['/', '<', '>', ':', '"', '\\', '|', '?', '*']

/-- Characters illegal in Linux file names. -/
def _LinuxIllegalCharacters : List Char := ['/']

/-- Characters illegal in macOS file names. -/
def _MacOSIllegalCharacters : List Char := ['/', ':']

/-- The set of characters that are percent-escaped in file names: the
union of the three illegal-character sets plus the percent sign itself. -/
def _EncodedCharacters : List Char :=
  '%' :: (_WindowsIllegalCharacters ++ _LinuxIllegalCharacters ++ _MacOSIllegalCharacters)

-- ## The timestamp comment pattern and _removeTimestampFromSector

/-- Matches the fixed-format timestamp body of _SectorTimestampPattern:
four digits, dash, two digits, dash, two digits, the letter T, three
colon-separated two-digit groups, a sign, and a two-digit colon-separated
offset. -/
def matchTimestampBody (cs : List Char) : Option (List Char) :=
  (expectDigits 4 cs).bind (expectChar '-') |>.bind (expectDigits 2) |>.bind (expectChar '-')
    |>.bind (expectDigits 2) |>.bind (expectChar 'T') |>.bind (expectDigits 2)
    |>.bind (expectChar ':') |>.bind (expectDigits 2) |>.bind (expectChar ':')
    |>.bind (expectDigits 2) |>.bind expectSign |>.bind (expectDigits 2)
    |>.bind (expectChar ':') |>.bind (expectDigits 2)

/-- Models re.search of the anchored regex _SectorTimestampPattern on one
line (map_update.py line 28): the line must start with the hash sign,
followed by optional whitespace, the timestamp body, and optional
trailing whitespace up to the end of the line. Because the pattern is
anchored at the start of the string, leading whitespace before the hash
sign prevents a match. -/
def _SectorTimestampPattern (line : String) : Bool :=
  match expectChar '#' line.data with
  | none => false
  | some cs =>
    match matchTimestampBody (cs.dropWhile pyIsSpace) with
    | none => false
    | some rest => rest.all pyIsSpace

/-- Loop body of _removeTimestampFromSector: walks the split lines,
counting removed timestamp lines and rebuilding the remaining data with a
line feed after every kept line. -/
def stripTimestampLoop : List String → Nat → String → Nat × String
  | [], linesRemoved, modifiedData => (linesRemoved, modifiedData)
  | line :: rest, linesRemoved, modifiedData =>
    if _SectorTimestampPattern line then stripTimestampLoop rest (linesRemoved + 1) modifiedData
    else stripTimestampLoop rest linesRemoved (modifiedData ++ line ++ "\n")

/-- Models _removeTimestampFromSector (map_update.py lines 62-73): removes
the timestamp comment lines and returns none unless exactly one line was
removed. -/
def _removeTimestampFromSector (sectorData : String) : Option String :=
  let r := stripTimestampLoop (pySplitlines sectorData) 0 ""
  if r.1 ≠ 1 then none else some r.2

/-- Concatenation of lines, each followed by a line feed: the shape of the
data rebuilt by _removeTimestampFromSector. -/
def concatLines : List String → String
  | [] => ""
  | line :: rest => line ++ "\n" ++ concatLines rest

-- ## File name encoding

/-- Models format(n, "x"): minimal lowercase hexadecimal digits. -/
def toHexLower (n : Nat) : List Char := Nat.toDigits 16 n

/-- Encoding of one character by _encodeFileName: characters in
_EncodedCharacters become a percent sign followed by the lowercase
hexadecimal code point; every other character is kept. -/
def encodeChar (c : Char) : List Char :=
  if c ∈ _EncodedCharacters then '%' :: toHexLower c.toNat else [c]

/-- Worker for _encodeFileName: the character loop of the source. -/
def encodeCharsAux : List Char → List Char
  | [] => []
  | c :: cs => encodeChar c ++ encodeCharsAux cs

/-- Models _encodeFileName (map_update.py lines 51-58). -/
def _encodeFileName (rawFileName : String) : String := String.mk (encodeCharsAux rawFileName.data)

def isHexDigitChar (c : Char) : Bool := c.isDigit || (decide ('a' ≤ c) && decide (c ≤ 'f'))

def hexDigitVal (c : Char) : Nat :=
  if c.isDigit then c.toNat - '0'.toNat else c.toNat - 'a'.toNat + 10

/-- Modelled from the spec: the decoder that reverses the file-name
escaping is part of the downstream application and is not under src/; the
spec states that escaping is a percent sign followed by the lowercase
hexadecimal code point, so decoding maps a percent sign followed by two
lowercase hexadecimal digits back to the character with that code point
and keeps every other character. -/
def decodeCharsAux : List Char → Option (List Char)
  | [] => some []
  | c :: rest =>
    if c = '%' then
      match rest with
      | a :: b :: rest2 =>
        if isHexDigitChar a && isHexDigitChar b then
          (decodeCharsAux rest2).map (fun t => Char.ofNat (16 * hexDigitVal a + hexDigitVal b) :: t)
        else none
      | _ => none
    else (decodeCharsAux rest).map (fun t => c :: t)

/-- Modelled from the spec: string-level file name decoding. -/
def _decodeFileName (s : String) : Option String := (decodeCharsAux s.data).map String.mk

-- ## The universe index data model and collision resolution

/-- One entry of the Sectors collection of a universe file. Names holds
the Text field of each member of the Names list in order (first entry is
the canonical name); Tags is the optional Tags string. -/
structure SectorInfo where
  Names : List String
  X : Int
  Y : Int
  Tags : Option String
deriving DecidableEq

/-- Models the OTU tag detection: the Tags string, defaulting to the
empty string when absent, split on single spaces, contains OTU. -/
def hasOTUTag (sectorInfo : SectorInfo) : Bool :=
  (pySplitChar ' ' (sectorInfo.Tags.getD "")).contains "OTU"

/-- Fatal error conditions raised by _downloadMapData. -/
inductive RErr
  | universeParseError
  | invalidSectorList
  | namesIndexError
  | duplicateDisambiguatedName
  | timestampRemoveFailed
  | metadataParseError
  | missingNameElements
  | nameMismatch
  | mappedNameMismatch
  | missingXElements
  | xPositionMismatch
  | missingYElements
  | yPositionMismatch
  | positionParseError
  | tooFewMilieuFiles
  | emptyFile
deriving DecidableEq

/-- Appends a sector to its group in the insertion-ordered name map,
creating the group at the end when the key is new: the behaviour of the
sectorNameMap dictionary updates in map_update.py lines 130-137. -/
def insertGroup : List (String × List SectorInfo) → String → SectorInfo → List (String × List SectorInfo)
  | [], key, s => [(key, [s])]
  | (k, g) :: rest, key, s =>
    if k = key then (k, g ++ [s]) :: rest else (k, g) :: insertGroup rest key s

/-- Reads the group stored under a key of the name map, the empty list
when the key is absent. -/
def groupGet : List (String × List SectorInfo) → String → List SectorInfo
  | [], _ => []
  | (k, g) :: rest, key => if k = key then g else groupGet rest key

/-- Builds sectorNameMap: entries grouped under their lower-cased first
name, keys in first-seen order. Reading Names[0] of an entry with an
empty Names list raises in the source (IndexError), modelled as an
error. -/
def buildNameMap : List SectorInfo → List (String × List SectorInfo) → Except RErr (List (String × List SectorInfo))
  | [], acc => .ok acc
  | s :: rest, acc =>
    match s.Names.head? with
    | none => .error .namesIndexError
    | some n => buildNameMap rest (insertGroup acc (pyLower n) s)

/-- The disambiguated name format used by map_update.py line 172. -/
def disambiguatedNameOf (canonicalName : String) (x y : Int) : String :=
  canonicalName ++ " (" ++ toString x ++ ", " ++ toString y ++ ")"

/-- The official-sector tie-break: an entry keeps its name when the group
has exactly one official sector and the entry is that sector. -/
def keepsName (officialSectors : List SectorInfo) (s : SectorInfo) : Prop :=
  officialSectors.length = 1 ∧ s ∈ officialSectors

instance (officialSectors : List SectorInfo) (s : SectorInfo) :
    Decidable (keepsName officialSectors s) :=
  inferInstanceAs (Decidable (_ ∧ _))

/-- The inner loop of collision resolution over the entries of one
colliding group (map_update.py lines 157-186): entries that keep their
name are skipped, every other entry is assigned its disambiguated name
after the duplicate check against the name-map keys. -/
def resolveGroupEntries (keys : List String) (officialSectors : List SectorInfo) :
    List SectorInfo → Except RErr (List (SectorInfo × String))
  | [] => .ok []
  | s :: rest =>
    if keepsName officialSectors s then resolveGroupEntries keys officialSectors rest
    else
      match s.Names.head? with
      | none => .error .namesIndexError
      | some canonicalName =>
        let disambiguatedName := disambiguatedNameOf canonicalName s.X s.Y
        if pyLower disambiguatedName ∈ keys then .error .duplicateDisambiguatedName
        else
          match resolveGroupEntries keys officialSectors rest with
          | .error e => .error e
          | .ok rs => .ok ((s, disambiguatedName) :: rs)

/-- The outer loop of collision resolution over the groups of the name
map (map_update.py lines 140-186): groups with at most one entry are
skipped; for the others the official sectors are the group members
carrying the OTU tag. -/
def resolveAllGroups (keys : List String) : List (String × List SectorInfo) → Except RErr (List (SectorInfo × String))
  | [] => .ok []
  | (_, g) :: rest =>
    if g.length ≤ 1 then resolveAllGroups keys rest
    else
      match resolveGroupEntries keys (g.filter hasOTUTag) g with
      | .error e => .error e
      | .ok rs =>
        match resolveAllGroups keys rest with
        | .error e => .error e
        | .ok rest2 => .ok (rs ++ rest2)

/-- First-match lookup of the disambiguated name assigned to an entry. -/
def findRename : List (SectorInfo × String) → SectorInfo → Option String
  | [], _ => none
  | (t, d) :: rest, s => if t = s then some d else findRename rest s

/-- The in-place Names update of map_update.py line 185: a renamed entry
gets its disambiguated name prepended to its name list. -/
def applyRename (renames : List (SectorInfo × String)) (s : SectorInfo) : SectorInfo :=
  match findRename renames s with
  | some d => { s with Names := d :: s.Names }
  | none => s

/-- Collision detection and resolution for one milieu (map_update.py
lines 120-187) as a function of the Sectors list: returns the patched
list together with nameMappings, the pairs of disambiguated name and
original canonical name. -/
def resolveConflicts (sectors : List SectorInfo) : Except RErr (List SectorInfo × List (String × String)) :=
  match buildNameMap sectors [] with
  | .error e => .error e
  | .ok nameMap =>
    match resolveAllGroups (nameMap.map Prod.fst) nameMap with
    | .error e => .error e
    | .ok renames =>
      .ok (sectors.map (applyRename renames),
           renames.map (fun r => (r.2, r.1.Names.headD "")))

-- ## Derived per-entry predicates used to state the collision claims

/-- The canonical (first) name of an entry, defaulting to the empty string. -/
def firstNameD (s : SectorInfo) : String := s.Names.headD ""

/-- The lower-cased canonical name, the grouping key of the name map. -/
def lowerKey (s : SectorInfo) : String := pyLower (firstNameD s)

/-- The group of entries sharing the lower-cased canonical name of s. -/
def collisionGroup (sectors : List SectorInfo) (s : SectorInfo) : List SectorInfo :=
  sectors.filter (fun t => lowerKey t == lowerKey s)

/-- The disambiguated name of an entry. -/
def dnameOf (s : SectorInfo) : String := disambiguatedNameOf (firstNameD s) s.X s.Y

/-- Whether collision resolution renames an entry: its group has more
than one member, and it is not the unique OTU-tagged member of the
group. -/
def shouldRename (sectors : List SectorInfo) (s : SectorInfo) : Bool :=
  decide (1 < (collisionGroup sectors s).length) &&
  !(decide (((collisionGroup sectors s).filter hasOTUTag).length = 1) && hasOTUTag s)

/-- The renamed form of an entry: the disambiguated name is prepended, so
the original canonical name becomes the first alternate name. -/
def renamedSector (s : SectorInfo) : SectorInfo :=
  { s with Names := dnameOf s :: s.Names }

-- ## Metadata model and cross-validation

/-- A child element of the metadata XML root, as read by the script: a
Name element with its optional text, an X or Y element with its parsed
integer value (none when the text is absent or not an integer, which
makes the int conversion in the source raise), or any other element. -/
inductive MetaElem
  | nameElem (text : Option String)
  | xElem (value : Option Int)
  | yElem (value : Option Int)
  | otherElem
deriving DecidableEq

def isNameElem : MetaElem → Bool
  | .nameElem _ => true
  | _ => false

/-- The texts of the Name children in document order: findall Name. -/
def nameTexts (metadata : List MetaElem) : List (Option String) :=
  metadata.filterMap (fun e => match e with | .nameElem t => some t | _ => none)

/-- The parsed values of the X children in document order: findall X. -/
def xValues (metadata : List MetaElem) : List (Option Int) :=
  metadata.filterMap (fun e => match e with | .xElem v => some v | _ => none)

/-- The parsed values of the Y children in document order: findall Y. -/
def yValues (metadata : List MetaElem) : List (Option Int) :=
  metadata.filterMap (fun e => match e with | .yElem v => some v | _ => none)

/-- Insertion of a new element directly before the first Name child
(map_update.py lines 259-263); appended at the end when no Name child
exists, which the validation rules out beforehand. -/
def insertBeforeFirstName : List MetaElem → MetaElem → List MetaElem
  | [], newElem => [newElem]
  | e :: rest, newElem =>
    if isNameElem e then newElem :: e :: rest else e :: insertBeforeFirstName rest newElem

/-- The position checks of map_update.py lines 266-275, run on the
possibly name-patched metadata: the first X and the first Y child must
parse as integers equal to the index entry coordinates; a missing X or Y
child is fatal. -/
def metaValidatePositions (sectorX sectorY : Int) (md : List MetaElem) : Except RErr (List MetaElem) :=
  match (xValues md).head? with
  | none => .error .missingXElements
  | some none => .error .positionParseError
  | some (some x) =>
    if x ≠ sectorX then .error .xPositionMismatch
    else
      match (yValues md).head? with
      | none => .error .missingYElements
      | some none => .error .positionParseError
      | some (some y) =>
        if y ≠ sectorY then .error .yPositionMismatch
        else .ok md

/-- Metadata cross-validation and name back-patching (map_update.py lines
237-275): the first Name must match the mapped original canonical name
(then the disambiguated name is inserted as new first name) or the
canonical name directly; after that the first X and Y must equal the
index entry coordinates; missing Name, X or Y children are fatal. -/
def metaValidate (nameMappings : List (String × String)) (canonicalName : String)
    (sectorX sectorY : Int) (metadata : List MetaElem) : Except RErr (List MetaElem) :=
  match (nameTexts metadata).head? with
  | none => .error .missingNameElements
  | some firstNameText =>
    match List.lookup canonicalName nameMappings with
    | none =>
      if firstNameText ≠ some canonicalName then .error .nameMismatch
      else metaValidatePositions sectorX sectorY metadata
    | some originalName =>
      if firstNameText ≠ some originalName then .error .mappedNameMismatch
      else metaValidatePositions sectorX sectorY
        (insertBeforeFirstName metadata (.nameElem (some canonicalName)))

-- ## Serialisers modelling json.dump and ElementTree.tostring

/-- Simplified model of the json.dump rendering of one Names member. -/
def nameTextJson (name : String) : String := "\x7b\"Text\":\"" ++ name ++ "\"\x7d"

/-- Simplified model of the json.dump rendering of one sector entry. -/
def sectorInfoJson (s : SectorInfo) : String :=
  "\x7b\"Names\":[" ++ String.intercalate "," (s.Names.map nameTextJson) ++
  "],\"X\":" ++ toString s.X ++ ",\"Y\":" ++ toString s.Y ++
  (match s.Tags with
   | none => ""
   | some t => ",\"Tags\":\"" ++ t ++ "\"") ++ "\x7d"

/-- Simplified model of the json.dump rendering of the patched universe
document; always a nonempty string. -/
def universeSerialize (sectors : List SectorInfo) : String :=
  "\x7b\"Sectors\":[" ++ String.intercalate "," (sectors.map sectorInfoJson) ++ "]\x7d"

/-- Simplified model of the XML rendering of one metadata child. -/
def metaElemXml : MetaElem → String
  | .nameElem t => "<Name>" ++ t.getD "" ++ "</Name>"
  | .xElem v => "<X>" ++ (match v with | some n => toString n | none => "") ++ "</X>"
  | .yElem v => "<Y>" ++ (match v with | some n => toString n | none => "") ++ "</Y>"
  | .otherElem => "<Other/>"

/-- Simplified model of ElementTree.tostring with an XML declaration;
always a nonempty string. -/
def xmlSerialize (metadata : List MetaElem) : String :=
  "<?xml version=\"1.0\" encoding=\"utf-8\"?>\n<Sector>" ++
  String.join (metadata.map metaElemXml) ++ "</Sector>"

-- ## The output tree and the full pipeline

/-- A path inside the map data directory: either a file directly in the
base directory, or a file inside the directory of one milieu. -/
inductive MapPath
  | top (fileName : String)
  | milieuFile (milieu : String) (fileName : String)
deriving DecidableEq

/-- One file write performed by the pipeline, in program order. -/
structure FileWrite where
  path : MapPath
  content : String
deriving DecidableEq

/-- The universe document of one milieu as fetched and parsed: the
json.loads call can fail, the Sectors key can be missing, or the sector
list is available. -/
inductive UniverseDoc
  | malformed
  | missingSectors
  | withSectors (sectors : List SectorInfo)

/-- The remote content a run of _downloadMapData observes. Downloads are
modelled as delivering these payloads; a network error propagating out of
the Downloader aborts the run before any further write, exactly like a
fatal error, and is not modelled separately. The metadata payload is
given in parsed form, none standing for an XML parse failure. -/
structure RemoteData where
  sophonts : String
  allegiances : String
  mains : String
  universeDoc : String → UniverseDoc
  sector : String → Int → Int → String
  metadata : String → Int → Int → Option (List MetaElem)

/-- Per-entry processing (map_update.py lines 194-286): the sector data
file is downloaded, stripped of its timestamp and written; then the
metadata is downloaded, validated against the index entry and written.
Returns the writes performed for the entry in order, and the fatal error
if one was raised. -/
def processEntry (rd : RemoteData) (milieu : String) (nameMappings : List (String × String))
    (sectorInfo : SectorInfo) : List FileWrite × Option RErr :=
  match sectorInfo.Names.head? with
  | none => ([], some .namesIndexError)
  | some canonicalName =>
    let encodedFileName := _encodeFileName canonicalName
    match _removeTimestampFromSector (rd.sector milieu sectorInfo.X sectorInfo.Y) with
    | none => ([], some .timestampRemoveFailed)
    | some sectorData =>
      let sectorWrite : FileWrite := ⟨.milieuFile milieu (encodedFileName ++ ".sec"), sectorData⟩
      match rd.metadata milieu sectorInfo.X sectorInfo.Y with
      | none => ([sectorWrite], some .metadataParseError)
      | some metadata =>
        match metaValidate nameMappings canonicalName sectorInfo.X sectorInfo.Y metadata with
        | .error e => ([sectorWrite], some e)
        | .ok md =>
          ([sectorWrite, ⟨.milieuFile milieu (encodedFileName ++ ".xml"), xmlSerialize md⟩], none)

/-- Sequential processing of the entries of one milieu; the first fatal
error aborts the run, keeping the writes performed so far. -/
def processEntries (rd : RemoteData) (milieu : String) (nameMappings : List (String × String)) :
    List SectorInfo → List FileWrite × Option RErr
  | [] => ([], none)
  | s :: rest =>
    let r := processEntry rd milieu nameMappings s
    match r.2 with
    | some e => (r.1, some e)
    | none =>
      let r2 := processEntries rd milieu nameMappings rest
      (r.1 ++ r2.1, r2.2)

/-- Processing of one milieu (map_update.py lines 106-286): fetch and
parse the universe document, resolve name collisions, write the patched
universe file, then process every entry. -/
def processMilieu (rd : RemoteData) (milieu : String) : List FileWrite × Option RErr :=
  match rd.universeDoc milieu with
  | .malformed => ([], some .universeParseError)
  | .missingSectors => ([], some .invalidSectorList)
  | .withSectors sectors =>
    match resolveConflicts sectors with
    | .error e => ([], some e)
    | .ok (patched, nameMappings) =>
      let r := processEntries rd milieu nameMappings patched
      (⟨.milieuFile milieu _UniverseFileName, universeSerialize patched⟩ :: r.1, r.2)

/-- Sequential processing of the milieu list. -/
def processMilieus (rd : RemoteData) : List String → List FileWrite × Option RErr
  | [] => ([], none)
  | m :: rest =>
    let r := processMilieu rd m
    match r.2 with
    | some e => (r.1, some e)
    | none =>
      let r2 := processMilieus rd rest
      (r.1 ++ r2.1, r2.2)

/-- The content of the file at a path after a list of writes: the last
write to the path wins. -/
def contentAt : List FileWrite → MapPath → Option String
  | [], _ => none
  | w :: rest, p =>
    match contentAt rest p with
    | some c => some c
    | none => if w.path = p then some w.content else none

/-- The distinct paths present in the output tree after the writes. -/
def treePaths (writes : List FileWrite) : List MapPath := (writes.map (fun w => w.path)).dedup

/-- The number of distinct plain files in the directory of a milieu. -/
def milieuFileCount (writes : List FileWrite) (milieu : String) : Nat :=
  ((writes.filterMap (fun w =>
      match w.path with
      | .milieuFile m name => if m = milieu then some name else none
      | .top _ => none)).dedup).length

/-- Whether some file of the output tree is empty. -/
def hasEmptyFile (writes : List FileWrite) : Bool :=
  (treePaths writes).any (fun p => ((contentAt writes p).getD "").data.isEmpty)

/-- The sanity checks of map_update.py lines 291-308: every milieu
directory holds at least _MinMilieuFiles plain files, and no file of the
tree is empty. -/
def sanityCheck (writes : List FileWrite) : Option RErr :=
  if _MilieuList.all (fun m => decide (_MinMilieuFiles ≤ milieuFileCount writes m)) then
    (if hasEmptyFile writes then some .emptyFile else none)
  else some .tooFewMilieuFiles

/-- Models _downloadMapData as a function from the remote content to the
ordered list of file writes and the fatal error, if one is raised. The
timestampText argument stands for the strftime rendering of the start
time. The tree starts empty: the old data directory is deleted and
recreated at the top of the source function. -/
def _downloadMapData (rd : RemoteData) (timestampText : String) : List FileWrite × Option RErr :=
  let topWrites : List FileWrite :=
    [⟨.top _SophontsFileName, rd.sophonts⟩,
     ⟨.top _AllegiancesFileName, rd.allegiances⟩,
     ⟨.top _MainsFileName, rd.mains⟩]
  let r := processMilieus rd _MilieuList
  let writes := topWrites ++ r.1
  match r.2 with
  | some e => (writes, some e)
  | none =>
    match sanityCheck writes with
    | some e => (writes, some e)
    | none =>
      (writes ++ [⟨.top _TimestampFileName, timestampText⟩,
                  ⟨.top _DataFormatFileName, _DataFormatVersion⟩], none)

-- ## Definitions modelled from the wording of the spec, for comparison

/-- Modelled from the spec: the timestamp-comment line pattern as the
spec words it, namely optional leading whitespace, then the hash sign, a
space, and the timestamp, to the end of the line. This deliberately
follows the wording of the claim rather than the source pattern, to
compare the two. -/
def specTimestampLine (line : String) : Bool :=
  match expectChar '#' (line.data.dropWhile pyIsSpace) with
  | none => false
  | some cs =>
    match expectChar ' ' cs with
    | none => false
    | some cs2 =>
      match matchTimestampBody cs2 with
      | some [] => true
      | _ => false

-- ## Concrete inputs used by witnesses and counterexamples

/-- The spec example: two entries named Unnamed, the official one at
coordinates zero zero, the unofficial one at zero one. -/
def exampleUnnamedSectors : List SectorInfo :=
  [⟨["Unnamed"], 0, 0, some "OTU"⟩, ⟨["Unnamed"], 0, 1, none⟩]

/-- The patched index the source produces on exampleUnnamedSectors. -/
def exampleUnnamedPatched : List SectorInfo :=
  [⟨["Unnamed"], 0, 0, some "OTU"⟩, ⟨["Unnamed (0, 1)", "Unnamed"], 0, 1, none⟩]

/-- The name mappings the source produces on exampleUnnamedSectors. -/
def exampleUnnamedMappings : List (String × String) := [("Unnamed (0, 1)", "Unnamed")]

/-- An index in which the disambiguated name of a colliding entry is
already in use as an alternate name of another entry, but not as any
canonical name. -/
def alternateNameClashSectors : List SectorInfo :=
  [⟨["Alpha", "Foo (1, 1)"], 9, 9, none⟩, ⟨["Foo"], 1, 1, none⟩, ⟨["Foo"], 2, 2, none⟩]

/-- The patched index the source produces on alternateNameClashSectors:
no error is raised although the disambiguated name of the second entry
is already in use as the first alternate name of the first entry. -/
def alternateClashPatched : List SectorInfo :=
  [⟨["Alpha", "Foo (1, 1)"], 9, 9, none⟩,
   ⟨["Foo (1, 1)", "Foo"], 1, 1, none⟩,
   ⟨["Foo (2, 2)", "Foo"], 2, 2, none⟩]

/-- The name mappings the source produces on alternateNameClashSectors. -/
def alternateClashMappings : List (String × String) :=
  [("Foo (1, 1)", "Foo"), ("Foo (2, 2)", "Foo")]

/-- An index in which the disambiguated name of a colliding entry equals
the canonical name of another entry. -/
def canonicalNameClashSectors : List SectorInfo :=
  [⟨["Foo (1, 1)"], 9, 9, none⟩, ⟨["Foo"], 1, 1, none⟩, ⟨["Foo"], 2, 2, none⟩]

/-- A sector payload whose only timestamp line, per the source pattern,
is the first line; the second line carries leading whitespace before the
hash sign and therefore does not match the source pattern, while it does
match the pattern as the spec words it. -/
def leadingSpacePayload : String :=
  "# 2020-01-01T00:00:00+00:00\n  # 2020-01-01T00:00:00+00:00\nA"

/-- Remote data for a mismatching-metadata run: the sector payload for
every entry carries one timestamp line, and the metadata reports an X
coordinate of two. -/
def mismatchRemoteData : RemoteData :=
  ⟨"s", "a", "m", fun _ => .missingSectors,
   fun _ _ _ => "# 2020-01-01T00:00:00+00:00\nA",
   fun _ _ _ => some [.nameElem (some "Foo"), .xElem (some 2), .yElem (some 1)]⟩

/-- The index entry paired with mismatchRemoteData. -/
def mismatchEntry : SectorInfo := ⟨["Foo"], 1, 1, none⟩

/-- Remote data whose first universe document has no Sectors key, making
every run abort before the marker files. -/
def abortRemoteData : RemoteData :=
  ⟨"s", "a", "m", fun _ => .missingSectors, fun _ _ _ => "", fun _ _ _ => none⟩

/-- An oracle whose first request fails with a transient status and whose
second request succeeds. -/
def retryOnceOracle : Nat → Downloader.NetOutcome :=
  fun i => if i = 0 then .httpError 503 else .success

/-- A file oracle whose first attempt fails with a transient status and
whose second attempt transfers without a cancellation tick. -/
def retryOnceFileOracle : Nat → Downloader.FileAttempt :=
  fun i => if i = 0 then .httpError 503 else .transfer [false, false]

/-- A file oracle whose first attempt reaches a progress tick at which
the cancellation callback returns true. -/
def cancelFileOracle : Nat → Downloader.FileAttempt :=
  fun _ => .transfer [false, true]

-- ## Helper lemmas about strings

theorem strData_append (s t : String) : (s ++ t).data = s.data ++ t.data := by
  cases s
  cases t
  rfl

theorem str_ext {s t : String} (h : s.data = t.data) : s = t := by
  cases s
  cases t
  exact congrArg String.mk h

theorem str_append_assoc (a b c : String) : a ++ b ++ c = a ++ (b ++ c) := by
  apply str_ext
  simp [strData_append]

-- ## Lemmas for the file-name encoding round trip

theorem percent_mem_encoded : '%' ∈ _EncodedCharacters := by decide

theorem decode_cons_escape (a b : Char) (rest : List Char)
    (ha : isHexDigitChar a = true) (hb : isHexDigitChar b = true) :
    decodeCharsAux ('%' :: a :: b :: rest) =
      (decodeCharsAux rest).map (fun t => Char.ofNat (16 * hexDigitVal a + hexDigitVal b) :: t) := by
  simp [decodeCharsAux, ha, hb]

theorem decode_cons_plain (c : Char) (rest : List Char) (hc : ¬c = '%') :
    decodeCharsAux (c :: rest) = (decodeCharsAux rest).map (fun t => c :: t) := by
  rw [decodeCharsAux.eq_def]
  simp [hc]

theorem decode_encode_escaped (c a b : Char) (rest : List Char) (h : encodeChar c = ['%', a, b])
    (ha : isHexDigitChar a = true) (hb : isHexDigitChar b = true)
    (hv : Char.ofNat (16 * hexDigitVal a + hexDigitVal b) = c) :
    decodeCharsAux (encodeChar c ++ rest) = (decodeCharsAux rest).map (fun t => c :: t) := by
  rw [h]
  show decodeCharsAux ('%' :: a :: b :: rest) = _
  rw [decode_cons_escape a b rest ha hb, hv]

theorem decode_encodeChar (c : Char) (rest : List Char) :
    decodeCharsAux (encodeChar c ++ rest) = (decodeCharsAux rest).map (fun t => c :: t) := by
  by_cases hc : c ∈ _EncodedCharacters
  · fin_cases hc
    · exact decode_encode_escaped _ '2' '5' rest (by decide) (by decide) (by decide) (by decide)
    · exact decode_encode_escaped _ '2' 'f' rest (by decide) (by decide) (by decide) (by decide)
    · exact decode_encode_escaped _ '3' 'c' rest (by decide) (by decide) (by decide) (by decide)
    · exact decode_encode_escaped _ '3' 'e' rest (by decide) (by decide) (by decide) (by decide)
    · exact decode_encode_escaped _ '3' 'a' rest (by decide) (by decide) (by decide) (by decide)
    · exact decode_encode_escaped _ '2' '2' rest (by decide) (by decide) (by decide) (by decide)
    · exact decode_encode_escaped _ '5' 'c' rest (by decide) (by decide) (by decide) (by decide)
    · exact decode_encode_escaped _ '7' 'c' rest (by decide) (by decide) (by decide) (by decide)
    · exact decode_encode_escaped _ '3' 'f' rest (by decide) (by decide) (by decide) (by decide)
    · exact decode_encode_escaped _ '2' 'a' rest (by decide) (by decide) (by decide) (by decide)
    · exact decode_encode_escaped _ '2' 'f' rest (by decide) (by decide) (by decide) (by decide)
    · exact decode_encode_escaped _ '2' 'f' rest (by decide) (by decide) (by decide) (by decide)
    · exact decode_encode_escaped _ '3' 'a' rest (by decide) (by decide) (by decide) (by decide)
  · have hp : ¬c = '%' := fun e => hc (e ▸ percent_mem_encoded)
    have he : encodeChar c = [c] := by simp [encodeChar, hc]
    rw [he]
    show decodeCharsAux (c :: rest) = _
    exact decode_cons_plain c rest hp

theorem decode_encodeCharsAux (cs : List Char) :
    decodeCharsAux (encodeCharsAux cs) = some cs := by
  induction cs with
  | nil => rfl
  | cons c cs ih =>
    show decodeCharsAux (encodeChar c ++ encodeCharsAux cs) = _
    rw [decode_encodeChar c (encodeCharsAux cs), ih]
    rfl

/-- C9: file-name escaping round-trips: for every name, percent-escaping
with _encodeFileName and then decoding reproduces the original name
exactly; in particular this holds for names containing the slash, colon,
asterisk and percent characters. -/
theorem C9_encode_decode_roundtrip (name : String) :
    _decodeFileName (_encodeFileName name) = some name := by
  show (decodeCharsAux (String.mk (encodeCharsAux name.data)).data).map String.mk = some name
  rw [show (String.mk (encodeCharsAux name.data)).data = encodeCharsAux name.data from rfl]
  rw [decode_encodeCharsAux]
  rfl

-- ## Lemmas for timestamp stripping

theorem stripTimestampLoop_spec (ls : List String) :
    ∀ (n : Nat) (acc : String),
      stripTimestampLoop ls n acc =
        (n + ls.countP (fun l => _SectorTimestampPattern l),
         acc ++ concatLines (ls.filter (fun l => !_SectorTimestampPattern l))) := by
  induction ls with
  | nil =>
    intro n acc
    simp [stripTimestampLoop, concatLines, String.append_empty]
  | cons l rest ih =>
    intro n acc
    by_cases h : _SectorTimestampPattern l
    · rw [show stripTimestampLoop (l :: rest) n acc = stripTimestampLoop rest (n + 1) acc from by
        simp [stripTimestampLoop, h]]
      rw [ih]
      simp [List.countP_cons, List.filter_cons, h]
      omega
    · rw [show stripTimestampLoop (l :: rest) n acc =
          stripTimestampLoop rest n (acc ++ l ++ "\n") from by simp [stripTimestampLoop, h]]
      rw [ih]
      simp [List.countP_cons, List.filter_cons, h, concatLines]
      simp [str_append_assoc]

/-- C5 counterexample: under the pattern as the claim words it (optional
leading whitespace before the hash sign), the payload below has two
timestamp-comment lines, so by the claim the stripping should fail; the
source pattern does not allow leading whitespace, so the code strips the
first line and succeeds. -/
theorem C5_counterexample :
    (pySplitlines leadingSpacePayload).countP (fun l => specTimestampLine l) = 2 ∧
    _removeTimestampFromSector leadingSpacePayload =
      some "  # 2020-01-01T00:00:00+00:00\nA\n" := by
  constructor
  · decide
  · decide

/-- C5 amended: timestamp stripping fails if and only if the number of
lines matching the source timestamp pattern (the hash sign as the first
character of the line, then optional whitespace, the timestamp, and
optional trailing whitespace; leading whitespace before the hash sign is
not allowed) is not exactly one; when it is exactly one, the result is
exactly the non-matching lines in order, each terminated by a line feed. -/
theorem C5_amended_strip_iff (sectorData : String) :
    (_removeTimestampFromSector sectorData = none ↔
      (pySplitlines sectorData).countP (fun l => _SectorTimestampPattern l) ≠ 1) ∧
    ((pySplitlines sectorData).countP (fun l => _SectorTimestampPattern l) = 1 →
      _removeTimestampFromSector sectorData =
        some (concatLines ((pySplitlines sectorData).filter (fun l => !_SectorTimestampPattern l)))) := by
  unfold _removeTimestampFromSector
  rw [stripTimestampLoop_spec]
  constructor
  · by_cases h : (pySplitlines sectorData).countP (fun l => _SectorTimestampPattern l) = 1
    · simp [h, String.empty_append]
    · simp [h]
  · intro h
    simp [h, String.empty_append]

/-- C5 amended witness: stripping the payload whose single source-pattern
timestamp line is the first line produces exactly the remaining lines. -/
theorem C5_amended_strip_iff_witness :
    _removeTimestampFromSector leadingSpacePayload =
      some (concatLines ((pySplitlines leadingSpacePayload).filter
        (fun l => !_SectorTimestampPattern l))) :=
  (C5_amended_strip_iff leadingSpacePayload).2 (by decide)

-- ## Lemmas for the Downloader retry loops

theorem downloadToBufferLoop_spec (oracle : Nat → Downloader.NetOutcome) :
    ∀ (rc d att : Nat) (r : Downloader.BufferRun),
      Downloader.downloadToBufferLoop oracle rc d att = r →
      (att < r.attempts ∧ r.attempts ≤ att + rc + 1) ∧
      r.delays = (List.range (r.attempts - att - 1)).map (fun k => d * 2 ^ k) ∧
      (∀ i, att ≤ i → i + 1 < r.attempts →
        ∃ c, oracle i = Downloader.NetOutcome.httpError c ∧ c ∈ Downloader._RetryHttpCodes) ∧
      (oracle (r.attempts - 1) = Downloader.NetOutcome.success →
        r.result = Downloader.BufferResult.ok) ∧
      (∀ c, oracle (r.attempts - 1) = Downloader.NetOutcome.httpError c →
        r.result = Downloader.BufferResult.raisedHttp c ∧
        (c ∉ Downloader._RetryHttpCodes ∨ r.attempts = att + rc + 1)) := by
  intro rc
  induction rc with
  | zero =>
    intro d att r hr
    rw [Downloader.downloadToBufferLoop.eq_def] at hr
    cases hatt : oracle att with
    | success =>
      simp only [hatt] at hr
      subst hr
      simp only []
      refine ⟨⟨by omega, by omega⟩, by simp, fun i hi hlt => by omega, fun _ => trivial, ?_⟩
      intro c hc
      simp only [Nat.add_sub_cancel] at hc
      rw [hatt] at hc
      exact absurd hc (by simp)
    | httpError code =>
      by_cases hmem : code ∈ Downloader._RetryHttpCodes
      · simp only [hatt, hmem, if_true] at hr
        subst hr
        simp only []
        refine ⟨⟨by omega, by omega⟩, by simp, fun i hi hlt => by omega, ?_, ?_⟩
        · intro hc
          simp only [Nat.add_sub_cancel] at hc
          rw [hatt] at hc
          exact absurd hc (by simp)
        · intro c hc
          simp only [Nat.add_sub_cancel] at hc
          rw [hatt] at hc
          cases hc
          exact ⟨rfl, Or.inr trivial⟩
      · simp only [hatt, hmem, if_false] at hr
        subst hr
        simp only []
        refine ⟨⟨by omega, by omega⟩, by simp, fun i hi hlt => by omega, ?_, ?_⟩
        · intro hc
          simp only [Nat.add_sub_cancel] at hc
          rw [hatt] at hc
          exact absurd hc (by simp)
        · intro c hc
          simp only [Nat.add_sub_cancel] at hc
          rw [hatt] at hc
          cases hc
          exact ⟨rfl, Or.inl hmem⟩
  | succ rc ih =>
    intro d att r hr
    rw [Downloader.downloadToBufferLoop.eq_def] at hr
    cases hatt : oracle att with
    | success =>
      simp only [hatt] at hr
      subst hr
      simp only []
      refine ⟨⟨by omega, by omega⟩, by simp, fun i hi hlt => by omega, fun _ => trivial, ?_⟩
      intro c hc
      simp only [Nat.add_sub_cancel] at hc
      rw [hatt] at hc
      exact absurd hc (by simp)
    | httpError code =>
      by_cases hmem : code ∈ Downloader._RetryHttpCodes
      · simp only [hatt, hmem, if_true] at hr
        obtain ⟨⟨h1, h2⟩, h3, h4, h5, h6⟩ :=
          ih (d * 2) (att + 1) (Downloader.downloadToBufferLoop oracle rc (d * 2) (att + 1)) rfl
        subst hr
        simp only []
        refine ⟨⟨by omega, by omega⟩, ?_, ?_, h5, ?_⟩
        · have hlen : (Downloader.downloadToBufferLoop oracle rc (d * 2) (att + 1)).attempts
              - att - 1
            = ((Downloader.downloadToBufferLoop oracle rc (d * 2) (att + 1)).attempts
              - (att + 1) - 1) + 1 := by omega
          rw [hlen, List.range_succ_eq_map, List.map_cons, List.map_map, h3]
          refine congrArg₂ _ (by simp) ?_
          apply List.map_congr_left
          intro k _
          simp [Function.comp, pow_succ]
          ring
        · intro i hi hlt
          rcases Nat.eq_or_lt_of_le hi with he | hgt
          · exact he ▸ ⟨code, hatt, hmem⟩
          · exact h4 i hgt hlt
        · intro c hc
          obtain ⟨hres, hor⟩ := h6 c hc
          exact ⟨hres, hor.imp id (fun he => by omega)⟩
      · simp only [hatt, hmem, if_false] at hr
        subst hr
        simp only []
        refine ⟨⟨by omega, by omega⟩, by simp, fun i hi hlt => by omega, ?_, ?_⟩
        · intro hc
          simp only [Nat.add_sub_cancel] at hc
          rw [hatt] at hc
          exact absurd hc (by simp)
        · intro c hc
          simp only [Nat.add_sub_cancel] at hc
          rw [hatt] at hc
          cases hc
          exact ⟨rfl, Or.inl hmem⟩

theorem downloadToFileLoop_spec (oracle : Nat → Downloader.FileAttempt) (hasCallback : Bool) :
    ∀ (rc d att : Nat) (r : Downloader.FileRun),
      Downloader.downloadToFileLoop oracle hasCallback rc d att = r →
      (att < r.attempts ∧ r.attempts ≤ att + rc + 1) ∧
      r.delays = (List.range (r.attempts - att - 1)).map (fun k => d * 2 ^ k) ∧
      (∀ i, att ≤ i → i + 1 < r.attempts →
        ∃ c, Downloader.urlretrieveAttempt hasCallback (oracle i) = Downloader.AttemptResult.httpRaised c ∧
          c ∈ Downloader._RetryHttpCodes) ∧
      (Downloader.urlretrieveAttempt hasCallback (oracle (r.attempts - 1)) = Downloader.AttemptResult.ok →
        r.outcome = Downloader.FileOutcome.returnedCompleted) ∧
      (Downloader.urlretrieveAttempt hasCallback (oracle (r.attempts - 1)) = Downloader.AttemptResult.cancelledRaised →
        r.outcome = Downloader.FileOutcome.returnedCancelled) ∧
      (∀ c, Downloader.urlretrieveAttempt hasCallback (oracle (r.attempts - 1)) = Downloader.AttemptResult.httpRaised c →
        r.outcome = Downloader.FileOutcome.raisedHttp c ∧
        (c ∉ Downloader._RetryHttpCodes ∨ r.attempts = att + rc + 1)) := by
  intro rc
  induction rc with
  | zero =>
    intro d att r hr
    rw [Downloader.downloadToFileLoop.eq_def] at hr
    cases hatt : Downloader.urlretrieveAttempt hasCallback (oracle att) with
    | ok =>
      simp only [hatt] at hr
      subst hr
      simp only []
      refine ⟨⟨by omega, by omega⟩, by simp, fun i hi hlt => by omega, fun _ => trivial, ?_, ?_⟩
      · intro hc
        simp only [Nat.add_sub_cancel] at hc
        rw [hatt] at hc
        exact absurd hc (by simp)
      · intro c hc
        simp only [Nat.add_sub_cancel] at hc
        rw [hatt] at hc
        exact absurd hc (by simp)
    | cancelledRaised =>
      simp only [hatt] at hr
      subst hr
      simp only []
      refine ⟨⟨by omega, by omega⟩, by simp, fun i hi hlt => by omega, ?_, fun _ => trivial, ?_⟩
      · intro hc
        simp only [Nat.add_sub_cancel] at hc
        rw [hatt] at hc
        exact absurd hc (by simp)
      · intro c hc
        simp only [Nat.add_sub_cancel] at hc
        rw [hatt] at hc
        exact absurd hc (by simp)
    | httpRaised code =>
      by_cases hmem : code ∈ Downloader._RetryHttpCodes
      · simp only [hatt, hmem, if_true] at hr
        subst hr
        simp only []
        refine ⟨⟨by omega, by omega⟩, by simp, fun i hi hlt => by omega, ?_, ?_, ?_⟩
        · intro hc
          simp only [Nat.add_sub_cancel] at hc
          rw [hatt] at hc
          exact absurd hc (by simp)
        · intro hc
          simp only [Nat.add_sub_cancel] at hc
          rw [hatt] at hc
          exact absurd hc (by simp)
        · intro c hc
          simp only [Nat.add_sub_cancel] at hc
          rw [hatt] at hc
          cases hc
          exact ⟨rfl, Or.inr trivial⟩
      · simp only [hatt, hmem, if_false] at hr
        subst hr
        simp only []
        refine ⟨⟨by omega, by omega⟩, by simp, fun i hi hlt => by omega, ?_, ?_, ?_⟩
        · intro hc
          simp only [Nat.add_sub_cancel] at hc
          rw [hatt] at hc
          exact absurd hc (by simp)
        · intro hc
          simp only [Nat.add_sub_cancel] at hc
          rw [hatt] at hc
          exact absurd hc (by simp)
        · intro c hc
          simp only [Nat.add_sub_cancel] at hc
          rw [hatt] at hc
          cases hc
          exact ⟨rfl, Or.inl hmem⟩
  | succ rc ih =>
    intro d att r hr
    rw [Downloader.downloadToFileLoop.eq_def] at hr
    cases hatt : Downloader.urlretrieveAttempt hasCallback (oracle att) with
    | ok =>
      simp only [hatt] at hr
      subst hr
      simp only []
      refine ⟨⟨by omega, by omega⟩, by simp, fun i hi hlt => by omega, fun _ => trivial, ?_, ?_⟩
      · intro hc
        simp only [Nat.add_sub_cancel] at hc
        rw [hatt] at hc
        exact absurd hc (by simp)
      · intro c hc
        simp only [Nat.add_sub_cancel] at hc
        rw [hatt] at hc
        exact absurd hc (by simp)
    | cancelledRaised =>
      simp only [hatt] at hr
      subst hr
      simp only []
      refine ⟨⟨by omega, by omega⟩, by simp, fun i hi hlt => by omega, ?_, fun _ => trivial, ?_⟩
      · intro hc
        simp only [Nat.add_sub_cancel] at hc
        rw [hatt] at hc
        exact absurd hc (by simp)
      · intro c hc
        simp only [Nat.add_sub_cancel] at hc
        rw [hatt] at hc
        exact absurd hc (by simp)
    | httpRaised code =>
      by_cases hmem : code ∈ Downloader._RetryHttpCodes
      · simp only [hatt, hmem, if_true] at hr
        obtain ⟨⟨h1, h2⟩, h3, h4, h5ok, h5can, h6⟩ :=
          ih (d * 2) (att + 1)
            (Downloader.downloadToFileLoop oracle hasCallback rc (d * 2) (att + 1)) rfl
        subst hr
        simp only []
        refine ⟨⟨by omega, by omega⟩, ?_, ?_, h5ok, h5can, ?_⟩
        · have hlen : (Downloader.downloadToFileLoop oracle hasCallback rc (d * 2) (att + 1)).attempts
              - att - 1
            = ((Downloader.downloadToFileLoop oracle hasCallback rc (d * 2) (att + 1)).attempts
              - (att + 1) - 1) + 1 := by omega
          rw [hlen, List.range_succ_eq_map, List.map_cons, List.map_map, h3]
          refine congrArg₂ _ (by simp) ?_
          apply List.map_congr_left
          intro k _
          simp [Function.comp, pow_succ]
          ring
        · intro i hi hlt
          rcases Nat.eq_or_lt_of_le hi with he | hgt
          · exact he ▸ ⟨code, hatt, hmem⟩
          · exact h4 i hgt hlt
        · intro c hc
          obtain ⟨hres, hor⟩ := h6 c hc
          exact ⟨hres, hor.imp id (fun he => by omega)⟩
      · simp only [hatt, hmem, if_false] at hr
        subst hr
        simp only []
        refine ⟨⟨by omega, by omega⟩, by simp, fun i hi hlt => by omega, ?_, ?_, ?_⟩
        · intro hc
          simp only [Nat.add_sub_cancel] at hc
          rw [hatt] at hc
          exact absurd hc (by simp)
        · intro hc
          simp only [Nat.add_sub_cancel] at hc
          rw [hatt] at hc
          exact absurd hc (by simp)
        · intro c hc
          simp only [Nat.add_sub_cancel] at hc
          rw [hatt] at hc
          cases hc
          exact ⟨rfl, Or.inl hmem⟩

/-- C2: for every retry budget n, both fetch operations retry after an
HTTP error exactly when the status code is in the transient set and the
remaining budget is positive: every non-final attempt raised a transient
HTTP error with budget remaining (forward direction), and an HTTP error
is propagated to the caller unchanged only when its code is not transient
or the budget is exhausted at attempt n plus one (backward direction).
At most n plus one attempts are made, the k-th retry is preceded by a
delay of the initial five seconds doubled k minus one times, and the
first attempt that does not raise an HTTP error ends the call without an
error: a completed buffer request returns ok, a completed file transfer
returns completed, and a cancelled file transfer returns normally as
cancelled. -/
theorem C2_retry_policy (oracleB : Nat → Downloader.NetOutcome)
    (oracleF : Nat → Downloader.FileAttempt) (hasCallback : Bool) (n count : Nat) :
    ((Downloader.downloadToBuffer oracleB n count).1.attempts ≤ n + 1 ∧
     (Downloader.downloadToBuffer oracleB n count).1.delays =
       (List.range ((Downloader.downloadToBuffer oracleB n count).1.attempts - 1)).map
         (fun k => Downloader._initialRetryDelaySeconds * 2 ^ k) ∧
     (∀ i, i + 1 < (Downloader.downloadToBuffer oracleB n count).1.attempts →
       i < n ∧ ∃ c, oracleB i = Downloader.NetOutcome.httpError c ∧
         c ∈ Downloader._RetryHttpCodes) ∧
     (oracleB ((Downloader.downloadToBuffer oracleB n count).1.attempts - 1) =
         Downloader.NetOutcome.success →
       (Downloader.downloadToBuffer oracleB n count).1.result = Downloader.BufferResult.ok) ∧
     (∀ c, oracleB ((Downloader.downloadToBuffer oracleB n count).1.attempts - 1) =
         Downloader.NetOutcome.httpError c →
       (Downloader.downloadToBuffer oracleB n count).1.result =
         Downloader.BufferResult.raisedHttp c ∧
       (c ∉ Downloader._RetryHttpCodes ∨
         (Downloader.downloadToBuffer oracleB n count).1.attempts = n + 1))) ∧
    ((Downloader.downloadToFile oracleF hasCallback n count).1.attempts ≤ n + 1 ∧
     (Downloader.downloadToFile oracleF hasCallback n count).1.delays =
       (List.range ((Downloader.downloadToFile oracleF hasCallback n count).1.attempts - 1)).map
         (fun k => Downloader._initialRetryDelaySeconds * 2 ^ k) ∧
     (∀ i, i + 1 < (Downloader.downloadToFile oracleF hasCallback n count).1.attempts →
       i < n ∧ ∃ c, Downloader.urlretrieveAttempt hasCallback (oracleF i) =
         Downloader.AttemptResult.httpRaised c ∧ c ∈ Downloader._RetryHttpCodes) ∧
     (Downloader.urlretrieveAttempt hasCallback
         (oracleF ((Downloader.downloadToFile oracleF hasCallback n count).1.attempts - 1)) =
         Downloader.AttemptResult.ok →
       (Downloader.downloadToFile oracleF hasCallback n count).1.outcome =
         Downloader.FileOutcome.returnedCompleted) ∧
     (Downloader.urlretrieveAttempt hasCallback
         (oracleF ((Downloader.downloadToFile oracleF hasCallback n count).1.attempts - 1)) =
         Downloader.AttemptResult.cancelledRaised →
       (Downloader.downloadToFile oracleF hasCallback n count).1.outcome =
         Downloader.FileOutcome.returnedCancelled) ∧
     (∀ c, Downloader.urlretrieveAttempt hasCallback
         (oracleF ((Downloader.downloadToFile oracleF hasCallback n count).1.attempts - 1)) =
         Downloader.AttemptResult.httpRaised c →
       (Downloader.downloadToFile oracleF hasCallback n count).1.outcome =
         Downloader.FileOutcome.raisedHttp c ∧
       (c ∉ Downloader._RetryHttpCodes ∨
         (Downloader.downloadToFile oracleF hasCallback n count).1.attempts = n + 1))) := by
  have hb := downloadToBufferLoop_spec oracleB n Downloader._initialRetryDelaySeconds 0
    (Downloader.downloadToBufferLoop oracleB n Downloader._initialRetryDelaySeconds 0) rfl
  have hf := downloadToFileLoop_spec oracleF hasCallback n Downloader._initialRetryDelaySeconds 0
    (Downloader.downloadToFileLoop oracleF hasCallback n Downloader._initialRetryDelaySeconds 0) rfl
  obtain ⟨⟨hb1, hb2⟩, hb3, hb4, hb5, hb6⟩ := hb
  obtain ⟨⟨hf1, hf2⟩, hf3, hf4, hf5ok, hf5can, hf6⟩ := hf
  rw [show (Downloader.downloadToBuffer oracleB n count).1 =
      Downloader.downloadToBufferLoop oracleB n Downloader._initialRetryDelaySeconds 0 from rfl]
  rw [show (Downloader.downloadToFile oracleF hasCallback n count).1 =
      Downloader.downloadToFileLoop oracleF hasCallback n Downloader._initialRetryDelaySeconds 0
      from rfl]
  constructor
  · refine ⟨by simpa using hb2, ?_, ?_, hb5, ?_⟩
    · simpa using hb3
    · intro i hlt
      refine ⟨?_, hb4 i (Nat.zero_le i) hlt⟩
      have := hb2
      omega
    · intro c hc
      obtain ⟨hres, hor⟩ := hb6 c hc
      exact ⟨hres, hor.imp id (fun he => by omega)⟩
  · refine ⟨by simpa using hf2, ?_, ?_, hf5ok, hf5can, ?_⟩
    · simpa using hf3
    · intro i hlt
      refine ⟨?_, hf4 i (Nat.zero_le i) hlt⟩
      have := hf2
      omega
    · intro c hc
      obtain ⟨hres, hor⟩ := hf6 c hc
      exact ⟨hres, hor.imp id (fun he => by omega)⟩

/-- C2 witness: with a budget of three and an oracle whose first request
fails with status 503 and whose second succeeds, both operations make two
attempts, sleep once for the initial five-second delay, and end without
an error. -/
theorem C2_retry_policy_witness :
    (Downloader.downloadToBuffer retryOnceOracle 3 0).1.result = Downloader.BufferResult.ok ∧
    (Downloader.downloadToBuffer retryOnceOracle 3 0).1.attempts ≤ 3 + 1 ∧
    (Downloader.downloadToBuffer retryOnceOracle 3 0).1.delays = [5] ∧
    (Downloader.downloadToFile retryOnceFileOracle true 3 0).1.outcome =
      Downloader.FileOutcome.returnedCompleted := by
  have h := C2_retry_policy retryOnceOracle retryOnceFileOracle true 3 0
  refine ⟨h.1.2.2.2.1 (by decide), h.1.1, ?_, h.2.2.2.2.1 (by decide)⟩
  rw [h.1.2.1]
  decide

/-- C7: for a downloadToFile call with a cancellation callback, if the
callback returns true at some progress tick of the final attempt, the
transfer is aborted, the call returns normally with the cancelled
outcome (no error is raised), and the download count is not incremented;
the download count never decreases, and it increases by exactly one when
and only when the call completes a (non-cancelled, non-erroring)
download. -/
theorem C7_cancellation_and_count (oracle : Nat → Downloader.FileAttempt) (n count : Nat) :
    (∀ ticks, oracle ((Downloader.downloadToFile oracle true n count).1.attempts - 1) =
        Downloader.FileAttempt.transfer ticks →
      ticks.any (fun t => Downloader._downloadProgressCallback t) = true →
      (Downloader.downloadToFile oracle true n count).1.outcome =
        Downloader.FileOutcome.returnedCancelled ∧
      (Downloader.downloadToFile oracle true n count).2 = count) ∧
    (Downloader.downloadToFile oracle true n count).2 =
      count + (if (Downloader.downloadToFile oracle true n count).1.outcome =
        Downloader.FileOutcome.returnedCompleted then 1 else 0) ∧
    count ≤ (Downloader.downloadToFile oracle true n count).2 ∧
    (Downloader.downloadToFile oracle true n count).2 ≤ count + 1 := by
  have hf := downloadToFileLoop_spec oracle true n Downloader._initialRetryDelaySeconds 0
    (Downloader.downloadToFileLoop oracle true n Downloader._initialRetryDelaySeconds 0) rfl
  obtain ⟨⟨hf1, hf2⟩, hf3, hf4, hf5ok, hf5can, hf6⟩ := hf
  have hcancel : ∀ ticks,
      oracle ((Downloader.downloadToFile oracle true n count).1.attempts - 1) =
        Downloader.FileAttempt.transfer ticks →
      ticks.any (fun t => Downloader._downloadProgressCallback t) = true →
      (Downloader.downloadToFile oracle true n count).1.outcome =
        Downloader.FileOutcome.returnedCancelled := by
    intro ticks hticks hany
    apply hf5can
    rw [show (Downloader.downloadToFile oracle true n count).1 =
        Downloader.downloadToFileLoop oracle true n Downloader._initialRetryDelaySeconds 0
        from rfl] at hticks
    rw [hticks]
    simp [Downloader.urlretrieveAttempt, hany]
  refine ⟨?_, ?_, ?_, ?_⟩
  · intro ticks hticks hany
    have hout := hcancel ticks hticks hany
    refine ⟨hout, ?_⟩
    show count + (if (Downloader.downloadToFileLoop oracle true n
        Downloader._initialRetryDelaySeconds 0).outcome =
        Downloader.FileOutcome.returnedCompleted then 1 else 0) = count
    rw [show (Downloader.downloadToFileLoop oracle true n
        Downloader._initialRetryDelaySeconds 0).outcome =
        Downloader.FileOutcome.returnedCancelled from hout]
    simp
  · rfl
  · show count ≤ count + (if (Downloader.downloadToFileLoop oracle true n
        Downloader._initialRetryDelaySeconds 0).outcome =
        Downloader.FileOutcome.returnedCompleted then 1 else 0)
    split <;> omega
  · show count + (if (Downloader.downloadToFileLoop oracle true n
        Downloader._initialRetryDelaySeconds 0).outcome =
        Downloader.FileOutcome.returnedCompleted then 1 else 0) ≤ count + 1
    split <;> omega

/-- C7 witness: an oracle whose first transfer reaches a progress tick at
which the cancellation callback returns true makes the call return
normally with the cancelled outcome and leaves the download count at its
previous value of five. -/
theorem C7_cancellation_and_count_witness :
    (Downloader.downloadToFile cancelFileOracle true 3 5).1.outcome =
      Downloader.FileOutcome.returnedCancelled ∧
    (Downloader.downloadToFile cancelFileOracle true 3 5).2 = 5 :=
  (C7_cancellation_and_count cancelFileOracle 3 5).1 [false, true] (by decide) (by decide)

-- ## Lemmas for metadata validation

theorem nameTexts_insertBeforeFirstName (md : List MetaElem) (t : Option String) :
    nameTexts (insertBeforeFirstName md (MetaElem.nameElem t)) = t :: nameTexts md := by
  induction md with
  | nil => rfl
  | cons e rest ih =>
    cases e with
    | nameElem t0 => simp [insertBeforeFirstName, isNameElem, nameTexts]
    | xElem v => simpa [insertBeforeFirstName, isNameElem, nameTexts] using ih
    | yElem v => simpa [insertBeforeFirstName, isNameElem, nameTexts] using ih
    | otherElem => simpa [insertBeforeFirstName, isNameElem, nameTexts] using ih

theorem xValues_insertBeforeFirstName (md : List MetaElem) (t : Option String) :
    xValues (insertBeforeFirstName md (MetaElem.nameElem t)) = xValues md := by
  induction md with
  | nil => rfl
  | cons e rest ih =>
    cases e with
    | nameElem t0 => simp [insertBeforeFirstName, isNameElem, xValues]
    | xElem v => simpa [insertBeforeFirstName, isNameElem, xValues] using ih
    | yElem v => simpa [insertBeforeFirstName, isNameElem, xValues] using ih
    | otherElem => simpa [insertBeforeFirstName, isNameElem, xValues] using ih

theorem yValues_insertBeforeFirstName (md : List MetaElem) (t : Option String) :
    yValues (insertBeforeFirstName md (MetaElem.nameElem t)) = yValues md := by
  induction md with
  | nil => rfl
  | cons e rest ih =>
    cases e with
    | nameElem t0 => simp [insertBeforeFirstName, isNameElem, yValues]
    | xElem v => simpa [insertBeforeFirstName, isNameElem, yValues] using ih
    | yElem v => simpa [insertBeforeFirstName, isNameElem, yValues] using ih
    | otherElem => simpa [insertBeforeFirstName, isNameElem, yValues] using ih

theorem metaValidatePositions_ok {sectorX sectorY : Int} {md md' : List MetaElem}
    (h : metaValidatePositions sectorX sectorY md = Except.ok md') :
    md' = md ∧ (xValues md).head? = some (some sectorX) ∧
    (yValues md).head? = some (some sectorY) := by
  unfold metaValidatePositions at h
  cases hx : (xValues md).head? with
  | none => rw [hx] at h; cases h
  | some vx =>
    cases vx with
    | none => rw [hx] at h; cases h
    | some x =>
      simp only [hx] at h
      by_cases hxe : x = sectorX
      · rw [if_neg (not_not_intro hxe)] at h
        cases hy : (yValues md).head? with
        | none => rw [hy] at h; cases h
        | some vy =>
          cases vy with
          | none => rw [hy] at h; cases h
          | some y =>
            simp only [hy] at h
            by_cases hye : y = sectorY
            · rw [if_neg (not_not_intro hye)] at h
              cases h
              exact ⟨rfl, by rw [hxe], by rw [hye]⟩
            · rw [if_pos hye] at h
              cases h
      · rw [if_pos hxe] at h
        cases h

theorem metaValidate_ok_facts {nameMappings : List (String × String)} {canonicalName : String}
    {sectorX sectorY : Int} {metadata md' : List MetaElem}
    (h : metaValidate nameMappings canonicalName sectorX sectorY metadata = Except.ok md') :
    (∃ t0, (nameTexts metadata).head? = some t0) ∧
    (xValues metadata).head? = some (some sectorX) ∧
    (yValues metadata).head? = some (some sectorY) ∧
    (∀ originalName, List.lookup canonicalName nameMappings = some originalName →
      (nameTexts metadata).head? = some (some originalName) ∧
      md' = insertBeforeFirstName metadata (MetaElem.nameElem (some canonicalName))) ∧
    (List.lookup canonicalName nameMappings = none →
      (nameTexts metadata).head? = some (some canonicalName) ∧ md' = metadata) := by
  unfold metaValidate at h
  cases hname : (nameTexts metadata).head? with
  | none => rw [hname] at h; cases h
  | some t0 =>
    simp only [hname] at h
    cases hlook : List.lookup canonicalName nameMappings with
    | none =>
      simp only [hlook] at h
      by_cases ht : t0 = some canonicalName
      · rw [if_neg (not_not_intro ht)] at h
        obtain ⟨hmd, hx, hy⟩ := metaValidatePositions_ok h
        refine ⟨⟨t0, rfl⟩, hx, hy, ?_, fun _ => ⟨by rw [ht], hmd⟩⟩
        intro orig hl
        cases hl
      · rw [if_pos ht] at h
        cases h
    | some orig =>
      simp only [hlook] at h
      by_cases ht : t0 = some orig
      · rw [if_neg (not_not_intro ht)] at h
        obtain ⟨hmd, hx, hy⟩ := metaValidatePositions_ok h
        rw [xValues_insertBeforeFirstName] at hx
        rw [yValues_insertBeforeFirstName] at hy
        refine ⟨⟨t0, rfl⟩, hx, hy, ?_, ?_⟩
        · intro orig2 hl
          cases hl
          exact ⟨by rw [ht], hmd⟩
        · intro hl
          cases hl
      · rw [if_pos ht] at h
        cases h

/-- C4: for every index entry, validating its metadata payload: when the
entry was disambiguated (its canonical name is a key of the resolution
mapping), the validation fails unless the metadata's first name equals
the original canonical name from the mapping, and on success the
disambiguated name is prepended as the new first name, the original
remaining the first alternate; when the entry was not disambiguated, the
validation fails unless the metadata's first name equals the canonical
name, and the metadata is left unchanged; and in both cases a payload
with no Name, no X or no Y child fails. -/
theorem C4_metadata_cross_validation (nameMappings : List (String × String))
    (canonicalName : String) (sectorX sectorY : Int) (metadata : List MetaElem) :
    ((nameTexts metadata = [] ∨ xValues metadata = [] ∨ yValues metadata = []) →
      ∃ e, metaValidate nameMappings canonicalName sectorX sectorY metadata = Except.error e) ∧
    (∀ originalName, List.lookup canonicalName nameMappings = some originalName →
      ((nameTexts metadata).head? ≠ some (some originalName) →
        ∃ e, metaValidate nameMappings canonicalName sectorX sectorY metadata = Except.error e) ∧
      (∀ md', metaValidate nameMappings canonicalName sectorX sectorY metadata = Except.ok md' →
        (nameTexts metadata).head? = some (some originalName) ∧
        nameTexts md' = some canonicalName :: nameTexts metadata)) ∧
    (List.lookup canonicalName nameMappings = none →
      ((nameTexts metadata).head? ≠ some (some canonicalName) →
        ∃ e, metaValidate nameMappings canonicalName sectorX sectorY metadata = Except.error e) ∧
      (∀ md', metaValidate nameMappings canonicalName sectorX sectorY metadata = Except.ok md' →
        (nameTexts metadata).head? = some (some canonicalName) ∧ md' = metadata)) := by
  refine ⟨?_, ?_, ?_⟩
  · intro hmiss
    cases hres : metaValidate nameMappings canonicalName sectorX sectorY metadata with
    | error e => exact ⟨e, rfl⟩
    | ok md' =>
      obtain ⟨⟨t0, hname⟩, hx, hy, _, _⟩ := metaValidate_ok_facts hres
      rcases hmiss with hn | hx0 | hy0
      · rw [hn] at hname; cases hname
      · rw [hx0] at hx; cases hx
      · rw [hy0] at hy; cases hy
  · intro orig hl
    constructor
    · intro hne
      cases hres : metaValidate nameMappings canonicalName sectorX sectorY metadata with
      | error e => exact ⟨e, rfl⟩
      | ok md' =>
        obtain ⟨_, _, _, hmap, _⟩ := metaValidate_ok_facts hres
        exact absurd (hmap orig hl).1 hne
    · intro md' hres
      obtain ⟨_, _, _, hmap, _⟩ := metaValidate_ok_facts hres
      obtain ⟨hh, hmd⟩ := hmap orig hl
      exact ⟨hh, by rw [hmd, nameTexts_insertBeforeFirstName]⟩
  · intro hl
    constructor
    · intro hne
      cases hres : metaValidate nameMappings canonicalName sectorX sectorY metadata with
      | error e => exact ⟨e, rfl⟩
      | ok md' =>
        obtain ⟨_, _, _, _, hnone⟩ := metaValidate_ok_facts hres
        exact absurd (hnone hl).1 hne
    · intro md' hres
      obtain ⟨_, _, _, _, hnone⟩ := metaValidate_ok_facts hres
      exact hnone hl

/-- C4 witness: validating the metadata of the disambiguated Unnamed
sector of the spec example: the first metadata name equals the mapped
original name, validation succeeds, and the disambiguated name is
prepended so the original becomes the first alternate. -/
theorem C4_metadata_cross_validation_witness :
    (nameTexts [MetaElem.nameElem (some "Unnamed"), MetaElem.xElem (some 0),
        MetaElem.yElem (some 1)]).head? = some (some "Unnamed") ∧
    nameTexts (insertBeforeFirstName
        [MetaElem.nameElem (some "Unnamed"), MetaElem.xElem (some 0), MetaElem.yElem (some 1)]
        (MetaElem.nameElem (some "Unnamed (0, 1)"))) =
      some "Unnamed (0, 1)" ::
        nameTexts [MetaElem.nameElem (some "Unnamed"), MetaElem.xElem (some 0),
          MetaElem.yElem (some 1)] := by
  have h := (C4_metadata_cross_validation [("Unnamed (0, 1)", "Unnamed")] "Unnamed (0, 1)"
    0 1 [MetaElem.nameElem (some "Unnamed"), MetaElem.xElem (some 0),
      MetaElem.yElem (some 1)]).2.1 "Unnamed" (by decide)
  have h2 := h.2 (insertBeforeFirstName
    [MetaElem.nameElem (some "Unnamed"), MetaElem.xElem (some 0), MetaElem.yElem (some 1)]
    (MetaElem.nameElem (some "Unnamed (0, 1)"))) (by rfl)
  exact h2

-- ## C6: position mismatch and the writes of one entry

theorem append_sec_ne_append_xml (s : String) : s ++ ".sec" ≠ s ++ ".xml" := by
  intro h
  have hd := congrArg String.data h
  rw [strData_append, strData_append] at hd
  have hsuffix := List.append_cancel_left hd
  exact absurd hsuffix (by decide)

/-- C6 counterexample: an entry whose metadata X coordinate (two) differs
from the index coordinates (one, one) is rejected with a fatal error, but
only after the sector data file of that entry has already been written:
the write list of the entry is not empty. -/
theorem C6_counterexample :
    processEntry mismatchRemoteData "M1105" [] mismatchEntry =
      ([⟨MapPath.milieuFile "M1105" "Foo.sec", "A\n"⟩], some RErr.xPositionMismatch) ∧
    (processEntry mismatchRemoteData "M1105" [] mismatchEntry).1 ≠ [] := by
  constructor
  · rfl
  · intro h
    rw [show (processEntry mismatchRemoteData "M1105" [] mismatchEntry).1 =
      [⟨MapPath.milieuFile "M1105" "Foo.sec", "A\n"⟩] from rfl] at h
    cases h

/-- C6 amended: for every index entry whose metadata first X or first Y
does not equal the entry's coordinates, the entry processing ends in a
fatal error and the metadata file of the entry is never written; the
sector data file of the entry, however, has already been written by the
time the mismatch is detected. -/
theorem C6_amended_position_mismatch (rd : RemoteData) (milieu : String)
    (nameMappings : List (String × String)) (sectorInfo : SectorInfo) (md : List MetaElem)
    (hmd : rd.metadata milieu sectorInfo.X sectorInfo.Y = some md)
    (hmm : (xValues md).head? ≠ some (some sectorInfo.X) ∨
           (yValues md).head? ≠ some (some sectorInfo.Y)) :
    (processEntry rd milieu nameMappings sectorInfo).2.isSome = true ∧
    ∀ w ∈ (processEntry rd milieu nameMappings sectorInfo).1,
      w.path ≠ MapPath.milieuFile milieu (_encodeFileName (firstNameD sectorInfo) ++ ".xml") := by
  unfold processEntry
  cases hn : sectorInfo.Names.head? with
  | none =>
    simp only []
    exact ⟨rfl, by simp⟩
  | some canonicalName =>
    simp only []
    have hfn : firstNameD sectorInfo = canonicalName := by
      unfold firstNameD
      cases hNames : sectorInfo.Names with
      | nil => rw [hNames] at hn; cases hn
      | cons a rest =>
        rw [hNames] at hn
        cases hn
        rfl
    cases hstrip : _removeTimestampFromSector (rd.sector milieu sectorInfo.X sectorInfo.Y) with
    | none =>
      simp only []
      exact ⟨rfl, by simp⟩
    | some sectorData =>
      simp only [hmd]
      cases hval : metaValidate nameMappings canonicalName sectorInfo.X sectorInfo.Y md with
      | error e =>
        simp only []
        refine ⟨rfl, ?_⟩
        intro w hw
        simp only [List.mem_singleton] at hw
        subst hw
        simp only []
        intro hpath
        rw [MapPath.milieuFile.injEq] at hpath
        rw [hfn] at hpath
        exact append_sec_ne_append_xml (_encodeFileName canonicalName) hpath.2
      | ok md' =>
        obtain ⟨_, hx, hy, _, _⟩ := metaValidate_ok_facts hval
        rcases hmm with hxm | hym
        · exact absurd hx hxm
        · exact absurd hy hym

/-- C6 amended witness: the mismatching entry ends in a fatal error. -/
theorem C6_amended_position_mismatch_witness :
    (processEntry mismatchRemoteData "M1105" [] mismatchEntry).2.isSome = true :=
  (C6_amended_position_mismatch mismatchRemoteData "M1105" [] mismatchEntry
    [MetaElem.nameElem (some "Foo"), MetaElem.xElem (some 2), MetaElem.yElem (some 1)]
    (by rfl) (Or.inl (by decide))).1

-- ## Lemmas for collision detection and resolution

theorem firstNameD_eq {s : SectorInfo} {n : String} (h : s.Names.head? = some n) :
    firstNameD s = n := by
  unfold firstNameD
  cases hN : s.Names with
  | nil => rw [hN] at h; cases h
  | cons a rest =>
    rw [hN] at h
    cases h
    rfl

theorem names_ne_nil_of_head {s : SectorInfo} {n : String} (h : s.Names.head? = some n) :
    s.Names ≠ [] := by
  intro hN
  rw [hN] at h
  cases h

theorem groupGet_insertGroup (acc : List (String × List SectorInfo)) (k : String)
    (s : SectorInfo) (key : String) :
    groupGet (insertGroup acc k s) key =
      if key = k then groupGet acc key ++ [s] else groupGet acc key := by
  induction acc with
  | nil =>
    by_cases hk : key = k
    · simp [insertGroup, groupGet, hk]
    · simp [insertGroup, groupGet, hk, Ne.symm hk]
  | cons p rest ih =>
    obtain ⟨k0, g0⟩ := p
    by_cases h0 : k0 = k
    · subst h0
      by_cases hk : key = k0
      · subst hk
        simp [insertGroup, groupGet]
      · simp [insertGroup, groupGet, Ne.symm hk, hk]
    · by_cases hk : key = k0
      · subst hk
        simp [insertGroup, groupGet, h0, Ne.symm h0]
      · simp [insertGroup, groupGet, h0, Ne.symm hk, ih]

theorem keys_insertGroup (acc : List (String × List SectorInfo)) (k : String) (s : SectorInfo) :
    (insertGroup acc k s).map Prod.fst =
      if k ∈ acc.map Prod.fst then acc.map Prod.fst else acc.map Prod.fst ++ [k] := by
  induction acc with
  | nil => simp [insertGroup]
  | cons p rest ih =>
    obtain ⟨k0, g0⟩ := p
    by_cases h0 : k0 = k
    · subst h0
      simp [insertGroup]
    · by_cases hmem : k ∈ rest.map Prod.fst
      · simp [insertGroup, h0, ih, hmem, Ne.symm h0]
      · simp [insertGroup, h0, ih, hmem, Ne.symm h0]

theorem mem_keys_insertGroup (acc : List (String × List SectorInfo)) (k : String)
    (s : SectorInfo) (key : String) :
    key ∈ (insertGroup acc k s).map Prod.fst ↔ key ∈ acc.map Prod.fst ∨ key = k := by
  rw [keys_insertGroup]
  by_cases hmem : k ∈ acc.map Prod.fst
  · simp only [hmem, if_true]
    constructor
    · exact Or.inl
    · rintro (h | h)
      · exact h
      · exact h ▸ hmem
  · simp [hmem]

theorem nodup_keys_insertGroup (acc : List (String × List SectorInfo)) (k : String)
    (s : SectorInfo) (hnd : List.Nodup (acc.map Prod.fst)) :
    List.Nodup ((insertGroup acc k s).map Prod.fst) := by
  rw [keys_insertGroup]
  by_cases hmem : k ∈ acc.map Prod.fst
  · simpa [hmem] using hnd
  · simp only [hmem, if_false]
    simp [List.nodup_append, hnd, hmem]

theorem buildNameMap_spec :
    ∀ (sectors : List SectorInfo) (acc m : List (String × List SectorInfo)),
      buildNameMap sectors acc = .ok m →
      (∀ s ∈ sectors, s.Names ≠ []) ∧
      (∀ key, groupGet m key =
        groupGet acc key ++ sectors.filter (fun t => lowerKey t == key)) ∧
      (∀ k, k ∈ m.map Prod.fst ↔
        k ∈ acc.map Prod.fst ∨ ∃ t ∈ sectors, lowerKey t = k) ∧
      (List.Nodup (acc.map Prod.fst) → List.Nodup (m.map Prod.fst)) := by
  intro sectors
  induction sectors with
  | nil =>
    intro acc m h
    cases h
    exact ⟨by simp, fun key => by simp, fun k => by simp, fun h => h⟩
  | cons s rest ih =>
    intro acc m h
    rw [buildNameMap.eq_def] at h
    simp only [] at h
    cases hn : s.Names.head? with
    | none => rw [hn] at h; cases h
    | some n =>
      simp only [hn] at h
      obtain ⟨ih1, ih2, ih3, ih4⟩ := ih (insertGroup acc (pyLower n) s) m h
      have hfn : lowerKey s = pyLower n := by rw [lowerKey, firstNameD_eq hn]
      refine ⟨?_, ?_, ?_, ?_⟩
      · intro t ht
        rcases List.mem_cons.mp ht with he | hm
        · exact he ▸ names_ne_nil_of_head hn
        · exact ih1 t hm
      · intro key
        rw [ih2 key, groupGet_insertGroup]
        by_cases hk : key = pyLower n
        · rw [if_pos hk, List.filter_cons, if_pos (by simp [hfn, hk])]
          simp
        · rw [if_neg hk, List.filter_cons, if_neg (by simp [hfn, hk, Ne.symm hk])]
      · intro k
        rw [ih3 k, mem_keys_insertGroup]
        constructor
        · rintro ((h | h) | ⟨t, ht, hkt⟩)
          · exact Or.inl h
          · exact Or.inr ⟨s, List.mem_cons_self s rest, by rw [hfn, h]⟩
          · exact Or.inr ⟨t, List.mem_cons_of_mem s ht, hkt⟩
        · rintro (h | ⟨t, ht, hkt⟩)
          · exact Or.inl (Or.inl h)
          · rcases List.mem_cons.mp ht with he | hm
            · exact Or.inl (Or.inr (by rw [← hkt, he, hfn]))
            · exact Or.inr ⟨t, hm, hkt⟩
      · intro hnd
        exact ih4 (nodup_keys_insertGroup acc (pyLower n) s hnd)

theorem mem_of_mem_keys :
    ∀ (m : List (String × List SectorInfo)) (k : String),
      k ∈ m.map Prod.fst → (k, groupGet m k) ∈ m := by
  intro m
  induction m with
  | nil => intro k h; cases h
  | cons p rest ih =>
    intro k h
    obtain ⟨k0, g0⟩ := p
    simp only [List.map_cons, List.mem_cons] at h
    by_cases h0 : k0 = k
    · subst h0
      simp [groupGet]
    · rw [groupGet, if_neg h0]
      rcases h with he | hm
      · exact absurd he.symm h0
      · exact List.mem_cons_of_mem _ (ih k hm)

theorem groupGet_of_mem_nodup :
    ∀ (m : List (String × List SectorInfo)),
      List.Nodup (m.map Prod.fst) →
      ∀ (k : String) (g : List SectorInfo), (k, g) ∈ m → groupGet m k = g := by
  intro m
  induction m with
  | nil => intro _ k g h; cases h
  | cons p rest ih =>
    intro hnd k g h
    obtain ⟨k0, g0⟩ := p
    rcases List.mem_cons.mp h with he | hm
    · cases he
      simp [groupGet]
    · have hk0 : k0 ≠ k := by
        intro he0
        subst he0
        have : k0 ∈ rest.map Prod.fst := List.mem_map.mpr ⟨(k0, g), hm, rfl⟩
        simp only [List.map_cons, List.nodup_cons] at hnd
        exact hnd.1 this
      rw [groupGet, if_neg hk0]
      exact ih (by simpa using (List.nodup_cons.mp (by simpa using hnd)).2) k g hm

theorem resolveGroupEntries_spec (keys : List String) (officials : List SectorInfo) :
    ∀ (g : List SectorInfo) (rs : List (SectorInfo × String)),
      resolveGroupEntries keys officials g = .ok rs →
      rs = (g.filter (fun s => !(decide (keepsName officials s)))).map
        (fun s => (s, dnameOf s)) ∧
      (∀ s ∈ g, ¬keepsName officials s → s.Names ≠ [] ∧ pyLower (dnameOf s) ∉ keys) := by
  intro g
  induction g with
  | nil =>
    intro rs h
    cases h
    exact ⟨rfl, by simp⟩
  | cons s g2 ih =>
    intro rs h
    rw [resolveGroupEntries.eq_def] at h
    simp only [] at h
    by_cases hkeep : keepsName officials s
    · rw [if_pos hkeep] at h
      obtain ⟨ih1, ih2⟩ := ih rs h
      refine ⟨?_, ?_⟩
      · rw [List.filter_cons, if_neg (by simp [hkeep])]
        exact ih1
      · intro t ht hket
        rcases List.mem_cons.mp ht with he | hm
        · exact absurd (he ▸ hkeep) hket
        · exact ih2 t hm hket
    · rw [if_neg hkeep] at h
      cases hn : s.Names.head? with
      | none => rw [hn] at h; cases h
      | some canonicalName =>
        simp only [hn] at h
        have hd : disambiguatedNameOf canonicalName s.X s.Y = dnameOf s := by
          rw [dnameOf, firstNameD_eq hn]
        by_cases hkey : pyLower (disambiguatedNameOf canonicalName s.X s.Y) ∈ keys
        · rw [if_pos hkey] at h
          cases h
        · rw [if_neg hkey] at h
          cases hrec : resolveGroupEntries keys officials g2 with
          | error e => rw [hrec] at h; cases h
          | ok rs2 =>
            simp only [hrec] at h
            cases h
            obtain ⟨ih1, ih2⟩ := ih rs2 hrec
            refine ⟨?_, ?_⟩
            · rw [List.filter_cons, if_pos (by simp [hkeep]), List.map_cons, ← ih1, hd]
            · intro t ht hket
              rcases List.mem_cons.mp ht with he | hm
              · subst he
                exact ⟨names_ne_nil_of_head hn, by rwa [hd] at hkey⟩
              · exact ih2 t hm hket

theorem resolveAllGroups_spec (keys : List String) :
    ∀ (m : List (String × List SectorInfo)) (renames : List (SectorInfo × String)),
      resolveAllGroups keys m = .ok renames →
      (∀ x : SectorInfo × String, x ∈ renames ↔ ∃ k g, (k, g) ∈ m ∧ 1 < g.length ∧
        x ∈ (g.filter (fun s => !(decide (keepsName (g.filter hasOTUTag) s)))).map
          (fun s => (s, dnameOf s))) ∧
      (∀ x ∈ renames, x.1.Names ≠ [] ∧ pyLower x.2 ∉ keys) := by
  intro m
  induction m with
  | nil =>
    intro renames h
    cases h
    exact ⟨fun x => by simp, by simp⟩
  | cons p rest ih =>
    intro renames h
    obtain ⟨k0, g0⟩ := p
    rw [resolveAllGroups.eq_def] at h
    simp only [] at h
    by_cases hlen : g0.length ≤ 1
    · rw [if_pos hlen] at h
      obtain ⟨ih1, ih2⟩ := ih renames h
      refine ⟨?_, ih2⟩
      intro x
      rw [ih1 x]
      constructor
      · rintro ⟨k, g, hm, hg, hx⟩
        exact ⟨k, g, List.mem_cons_of_mem _ hm, hg, hx⟩
      · rintro ⟨k, g, hm, hg, hx⟩
        rcases List.mem_cons.mp hm with he | hm2
        · cases he
          exact absurd hg (by omega)
        · exact ⟨k, g, hm2, hg, hx⟩
    · rw [if_neg hlen] at h
      cases hge : resolveGroupEntries keys (g0.filter hasOTUTag) g0 with
      | error e => rw [hge] at h; cases h
      | ok rs =>
        simp only [hge] at h
        cases hrest : resolveAllGroups keys rest with
        | error e => rw [hrest] at h; cases h
        | ok rest2 =>
          simp only [hrest] at h
          cases h
          obtain ⟨hrs, hrs2⟩ := resolveGroupEntries_spec keys (g0.filter hasOTUTag) g0 rs hge
          obtain ⟨ih1, ih2⟩ := ih rest2 hrest
          refine ⟨?_, ?_⟩
          · intro x
            rw [List.mem_append, ih1 x]
            constructor
            · rintro (hx | ⟨k, g, hm, hg, hx⟩)
              · exact ⟨k0, g0, List.mem_cons_self _ _, by omega, by rw [← hrs]; exact hx⟩
              · exact ⟨k, g, List.mem_cons_of_mem _ hm, hg, hx⟩
            · rintro ⟨k, g, hm, hg, hx⟩
              rcases List.mem_cons.mp hm with he | hm2
              · cases he
                exact Or.inl (by rw [hrs]; exact hx)
              · exact Or.inr ⟨k, g, hm2, hg, hx⟩
          · intro x hx
            rcases List.mem_append.mp hx with hx1 | hx2
            · rw [hrs] at hx1
              obtain ⟨s, hs, hxe⟩ := List.mem_map.mp hx1
              have hsf := List.mem_filter.mp hs
              have hknot : ¬keepsName (g0.filter hasOTUTag) s := by
                have h2 := hsf.2
                simpa using h2
              obtain ⟨hnn, hnk⟩ := hrs2 s hsf.1 hknot
              rw [← hxe]
              exact ⟨hnn, hnk⟩
            · exact ih2 x hx2

theorem findRename_eq_some_of (renames : List (SectorInfo × String)) (s : SectorInfo)
    (d : String) (hmem : (s, d) ∈ renames)
    (huniq : ∀ p ∈ renames, p.1 = s → p.2 = d) :
    findRename renames s = some d := by
  induction renames with
  | nil => cases hmem
  | cons p rest ih =>
    obtain ⟨t, d0⟩ := p
    rw [findRename]
    by_cases ht : t = s
    · rw [if_pos ht]
      have hv := huniq (t, d0) (List.mem_cons_self _ _) ht
      simpa using hv
    · rw [if_neg ht]
      rcases List.mem_cons.mp hmem with he | hm
      · cases he
        exact absurd rfl ht
      · exact ih hm (fun p hp => huniq p (List.mem_cons_of_mem _ hp))

theorem mem_of_findRename_some (renames : List (SectorInfo × String)) (s : SectorInfo)
    (d : String) (h : findRename renames s = some d) : (s, d) ∈ renames := by
  induction renames with
  | nil => cases h
  | cons p rest ih =>
    obtain ⟨t, d0⟩ := p
    rw [findRename] at h
    by_cases ht : t = s
    · rw [if_pos ht] at h
      cases h
      subst ht
      exact List.mem_cons_self _ _
    · rw [if_neg ht] at h
      exact List.mem_cons_of_mem _ (ih h)

theorem shouldRename_iff (sectors : List SectorInfo) (s : SectorInfo) :
    shouldRename sectors s = true ↔
      (1 < (collisionGroup sectors s).length ∧
       ¬(((collisionGroup sectors s).filter hasOTUTag).length = 1 ∧ hasOTUTag s = true)) := by
  unfold shouldRename
  simp only [Bool.and_eq_true, decide_eq_true_eq, Bool.not_eq_true',
    Bool.and_eq_false_iff, decide_eq_false_iff_not]
  constructor
  · rintro ⟨h1, h2⟩
    refine ⟨h1, ?_⟩
    rintro ⟨hb1, hb2⟩
    rcases h2 with hc | hc
    · exact hc hb1
    · rw [hb2] at hc
      cases hc
  · rintro ⟨h1, h2⟩
    refine ⟨h1, ?_⟩
    by_cases hb1 : ((collisionGroup sectors s).filter hasOTUTag).length = 1
    · right
      cases hb2 : hasOTUTag s
      · rfl
      · exact absurd ⟨hb1, hb2⟩ h2
    · exact Or.inl hb1

theorem keepsName_filter_iff (g : List SectorInfo) (s : SectorInfo) (hs : s ∈ g) :
    keepsName (g.filter hasOTUTag) s ↔
      ((g.filter hasOTUTag).length = 1 ∧ hasOTUTag s = true) := by
  unfold keepsName
  constructor
  · rintro ⟨h1, h2⟩
    exact ⟨h1, (List.mem_filter.mp h2).2⟩
  · rintro ⟨h1, h2⟩
    exact ⟨h1, List.mem_filter.mpr ⟨hs, h2⟩⟩

theorem renames_char (sectors : List SectorInfo)
    (nameMap : List (String × List SectorInfo)) (renames : List (SectorInfo × String))
    (hb : buildNameMap sectors [] = .ok nameMap)
    (hr : resolveAllGroups (nameMap.map Prod.fst) nameMap = .ok renames) :
    (∀ x : SectorInfo × String, x ∈ renames ↔
      (x.1 ∈ sectors ∧ shouldRename sectors x.1 = true ∧ x.2 = dnameOf x.1)) ∧
    (∀ x ∈ renames, pyLower x.2 ∉ sectors.map lowerKey) := by
  obtain ⟨hnn, hgroups, hkeys, hnd0⟩ := buildNameMap_spec sectors [] nameMap hb
  have hnd : List.Nodup (nameMap.map Prod.fst) := hnd0 (by simp)
  have hgg : ∀ key, groupGet nameMap key = sectors.filter (fun t => lowerKey t == key) := by
    intro key
    rw [hgroups key]
    simp [groupGet]
  obtain ⟨hiff, hside⟩ := resolveAllGroups_spec (nameMap.map Prod.fst) nameMap renames hr
  have hkeysm : ∀ k, k ∈ nameMap.map Prod.fst ↔ k ∈ sectors.map lowerKey := by
    intro k
    rw [hkeys k]
    simp [List.mem_map, eq_comm]
  constructor
  · rintro ⟨x1, x2⟩
    rw [hiff (x1, x2)]
    simp only []
    constructor
    · rintro ⟨k, g, hm, hlen, hx⟩
      have hgk : groupGet nameMap k = g := groupGet_of_mem_nodup nameMap hnd k g hm
      have hgeq : g = sectors.filter (fun t => lowerKey t == k) := by rw [← hgk, hgg]
      obtain ⟨s, hs, hxe⟩ := List.mem_map.mp hx
      have hsf := List.mem_filter.mp hs
      have hsg : s ∈ g := hsf.1
      have hsk : lowerKey s = k := by
        have h2 := (List.mem_filter.mp (hgeq ▸ hsg)).2
        simpa using h2
      have hss : s ∈ sectors := (List.mem_filter.mp (hgeq ▸ hsg)).1
      have hcg : g = collisionGroup sectors s := by
        rw [hgeq, collisionGroup]
        apply List.filter_congr
        intro t _
        rw [hsk]
      have hknot : ¬keepsName (g.filter hasOTUTag) s := by simpa using hsf.2
      have hxe1 : x1 = s := (Prod.mk.injEq _ _ _ _ ▸ hxe.symm).1
      have hxe2 : x2 = dnameOf s := (Prod.mk.injEq _ _ _ _ ▸ hxe.symm).2
      subst hxe1
      refine ⟨hss, ?_, by rw [hxe2]⟩
      rw [shouldRename_iff]
      refine ⟨by rw [← hcg]; exact hlen, ?_⟩
      intro hcond
      apply hknot
      rw [hcg] at hsg ⊢
      exact (keepsName_filter_iff (collisionGroup sectors x1) x1 hsg).mpr hcond
    · rintro ⟨hss, hsr, hxd⟩
      have hsrr := (shouldRename_iff sectors x1).mp hsr
      have hk : lowerKey x1 ∈ nameMap.map Prod.fst :=
        (hkeys (lowerKey x1)).mpr (Or.inr ⟨x1, hss, rfl⟩)
      have hm : (lowerKey x1, groupGet nameMap (lowerKey x1)) ∈ nameMap :=
        mem_of_mem_keys nameMap (lowerKey x1) hk
      have hgeq : groupGet nameMap (lowerKey x1) = collisionGroup sectors x1 := by
        rw [hgg, collisionGroup]
      refine ⟨lowerKey x1, groupGet nameMap (lowerKey x1), hm, ?_, ?_⟩
      · rw [hgeq]
        exact hsrr.1
      · have hsg : x1 ∈ groupGet nameMap (lowerKey x1) := by
          rw [hgeq]
          exact List.mem_filter.mpr ⟨hss, by simp⟩
        have hknot : ¬keepsName ((groupGet nameMap (lowerKey x1)).filter hasOTUTag) x1 := by
          rw [hgeq]
          intro hkeep
          rw [hgeq] at hsg
          exact hsrr.2 ((keepsName_filter_iff (collisionGroup sectors x1) x1 hsg).mp hkeep)
        apply List.mem_map.mpr
        refine ⟨x1, List.mem_filter.mpr ⟨hsg, by simpa using hknot⟩, ?_⟩
        rw [hxd]
  · intro x hx
    have h2 := hside x hx
    intro hmem
    exact h2.2 ((hkeysm (pyLower x.2)).mpr hmem)

theorem resolveConflicts_spec (sectors patched : List SectorInfo)
    (mappings : List (String × String))
    (h : resolveConflicts sectors = .ok (patched, mappings)) :
    patched = sectors.map
      (fun s => if shouldRename sectors s = true then renamedSector s else s) ∧
    (∀ d c, (d, c) ∈ mappings ↔
      ∃ s, s ∈ sectors ∧ shouldRename sectors s = true ∧ d = dnameOf s ∧ c = firstNameD s) ∧
    (∀ s ∈ sectors, shouldRename sectors s = true →
      pyLower (dnameOf s) ∉ sectors.map lowerKey) := by
  unfold resolveConflicts at h
  cases hb : buildNameMap sectors [] with
  | error e => rw [hb] at h; cases h
  | ok nameMap =>
    simp only [hb] at h
    cases hr : resolveAllGroups (nameMap.map Prod.fst) nameMap with
    | error e => rw [hr] at h; cases h
    | ok renames =>
      simp only [hr] at h
      cases h
      obtain ⟨hchar, hnotin⟩ := renames_char sectors nameMap renames hb hr
      refine ⟨?_, ?_, ?_⟩
      · apply List.map_congr_left
        intro s hs
        unfold applyRename
        by_cases hsr : shouldRename sectors s = true
        · have hmem : (s, dnameOf s) ∈ renames := (hchar (s, dnameOf s)).mpr ⟨hs, hsr, rfl⟩
          have huniq : ∀ p ∈ renames, p.1 = s → p.2 = dnameOf s := by
            intro p hp hps
            have hpd := ((hchar p).mp hp).2.2
            rw [hpd, hps]
          rw [findRename_eq_some_of renames s (dnameOf s) hmem huniq, if_pos hsr]
          rfl
        · cases hf : findRename renames s with
          | none => rw [if_neg hsr]
          | some d =>
            have hmem := mem_of_findRename_some renames s d hf
            exact absurd ((hchar (s, d)).mp hmem).2.1 hsr
      · intro d c
        constructor
        · intro hdc
          obtain ⟨r, hr2, hre⟩ := List.mem_map.mp hdc
          obtain ⟨hr1, hsr, hrd⟩ := (hchar r).mp hr2
          obtain ⟨r1, r2⟩ := r
          have hred : r2 = d := (Prod.mk.injEq _ _ _ _ ▸ hre).1
          have hrec : r1.Names.headD "" = c := (Prod.mk.injEq _ _ _ _ ▸ hre).2
          exact ⟨r1, hr1, hsr, by rw [← hred]; exact hrd, by rw [← hrec]; rfl⟩
        · rintro ⟨s, hs, hsr, hd, hc⟩
          apply List.mem_map.mpr
          refine ⟨(s, dnameOf s), (hchar (s, dnameOf s)).mpr ⟨hs, hsr, rfl⟩, ?_⟩
          simp only []
          rw [hd, hc]
          rfl
      · intro s hs hsr
        have hmem : (s, dnameOf s) ∈ renames := (hchar (s, dnameOf s)).mpr ⟨hs, hsr, rfl⟩
        exact hnotin (s, dnameOf s) hmem

/-- C1: collision resolution groups the index entries of an epoch by
lower-cased canonical (first) name; in a group with more than one entry,
an entry keeps its unmodified value exactly when the group has exactly
one OTU-tagged entry and it is that entry, and every other group member
is renamed by prepending its disambiguated name, canonical name followed
by the coordinates in parentheses; singleton groups are untouched; and
the resolution mapping contains the pair of disambiguated name and
original canonical name for every renamed entry. -/
theorem C1_collision_resolution (sectors patched : List SectorInfo)
    (mappings : List (String × String))
    (h : resolveConflicts sectors = .ok (patched, mappings)) :
    patched = sectors.map
      (fun s => if shouldRename sectors s = true then renamedSector s else s) ∧
    ∀ s ∈ sectors, shouldRename sectors s = true → (dnameOf s, firstNameD s) ∈ mappings := by
  obtain ⟨h1, h2, _⟩ := resolveConflicts_spec sectors patched mappings h
  exact ⟨h1, fun s hs hsr => (h2 (dnameOf s) (firstNameD s)).mpr ⟨s, hs, hsr, rfl, rfl⟩⟩

/-- C1 witness: the spec example: the OTU-tagged Unnamed entry at zero
zero keeps its name, the entry at zero one becomes Unnamed (0, 1), and
the resolution mapping sends Unnamed (0, 1) to Unnamed. -/
theorem C1_collision_resolution_witness :
    exampleUnnamedPatched = exampleUnnamedSectors.map
      (fun s => if shouldRename exampleUnnamedSectors s = true then renamedSector s else s) ∧
    (dnameOf ⟨["Unnamed"], 0, 1, none⟩, firstNameD ⟨["Unnamed"], 0, 1, none⟩) ∈
      exampleUnnamedMappings := by
  have h := C1_collision_resolution exampleUnnamedSectors exampleUnnamedPatched
    exampleUnnamedMappings (by rfl)
  exact ⟨h.1, h.2 ⟨["Unnamed"], 0, 1, none⟩ (by decide) (by decide)⟩

/-- C10: collision resolution only changes the Names list of the entries
it disambiguates, by prepending the disambiguated name and keeping every
pre-existing name, so the original canonical name becomes the first
alternate; the coordinates and tags of every entry, and every field of
every non-disambiguated entry, are unchanged, and the entry list keeps
its length and order. -/
theorem C10_frame_conditions (sectors patched : List SectorInfo)
    (mappings : List (String × String))
    (h : resolveConflicts sectors = .ok (patched, mappings)) :
    patched.length = sectors.length ∧
    ∀ i (hi : i < sectors.length) (hip : i < patched.length),
      (patched.get ⟨i, hip⟩).X = (sectors.get ⟨i, hi⟩).X ∧
      (patched.get ⟨i, hip⟩).Y = (sectors.get ⟨i, hi⟩).Y ∧
      (patched.get ⟨i, hip⟩).Tags = (sectors.get ⟨i, hi⟩).Tags ∧
      (shouldRename sectors (sectors.get ⟨i, hi⟩) = true →
        (patched.get ⟨i, hip⟩).Names =
          dnameOf (sectors.get ⟨i, hi⟩) :: (sectors.get ⟨i, hi⟩).Names) ∧
      (shouldRename sectors (sectors.get ⟨i, hi⟩) = false →
        patched.get ⟨i, hip⟩ = sectors.get ⟨i, hi⟩) := by
  obtain ⟨h1, _, _⟩ := resolveConflicts_spec sectors patched mappings h
  subst h1
  refine ⟨by simp, ?_⟩
  intro i hi hip
  rw [List.get_map]  -- deprecated alias kept for the get-based statement
  by_cases hsr : shouldRename sectors (sectors.get ⟨i, hi⟩) = true
  · rw [if_pos hsr]
    refine ⟨rfl, rfl, rfl, fun _ => rfl, ?_⟩
    intro hf
    rw [hsr] at hf
    cases hf
  · rw [if_neg hsr]
    exact ⟨rfl, rfl, rfl, fun ht => absurd ht hsr, fun _ => rfl⟩

/-- C10 witness: on the spec example the patched list keeps its length,
the second entry keeps its coordinates and tags, and its name list gains
the disambiguated name in front of the original. -/
theorem C10_frame_conditions_witness :
    exampleUnnamedPatched.length = exampleUnnamedSectors.length ∧
    (exampleUnnamedPatched.get ⟨1, by decide⟩).X =
      (exampleUnnamedSectors.get ⟨1, by decide⟩).X ∧
    (exampleUnnamedPatched.get ⟨1, by decide⟩).Tags =
      (exampleUnnamedSectors.get ⟨1, by decide⟩).Tags := by
  have h := C10_frame_conditions exampleUnnamedSectors exampleUnnamedPatched
    exampleUnnamedMappings (by rfl)
  have h2 := h.2 1 (by decide) (by decide)
  exact ⟨h.1, h2.1, h2.2.2.1⟩

/-- C8 counterexample: in this epoch the disambiguated name Foo (1, 1) of
the colliding entry at coordinates one one is already in use,
case-insensitively, as an alternate name of another entry; the claim
demands a fatal error, but the run succeeds and renames both colliding
entries. The duplicate check of the source compares only against the
lower-cased canonical (first) names, the keys of the name map. -/
theorem C8_counterexample :
    resolveConflicts alternateNameClashSectors =
      .ok (alternateClashPatched, alternateClashMappings) ∧
    "foo (1, 1)" ∈ (alternateNameClashSectors.map (fun s => s.Names.map pyLower)).flatten ∧
    pyLower (dnameOf ⟨["Foo"], 1, 1, none⟩) = "foo (1, 1)" := by
  refine ⟨by rfl, by decide, by decide⟩

/-- C8 amended: for every entry being disambiguated, the run raises a
fatal error if the disambiguated name is already in use, compared
case-insensitively, as the canonical (first) name of some entry of the
epoch's index as originally fetched; alternate names are not checked. -/
theorem C8_amended_duplicate_check (sectors : List SectorInfo) (s : SectorInfo)
    (hs : s ∈ sectors) (hsr : shouldRename sectors s = true)
    (hdup : pyLower (dnameOf s) ∈ sectors.map lowerKey) :
    ∃ e, resolveConflicts sectors = .error e := by
  cases hres : resolveConflicts sectors with
  | error e => exact ⟨e, rfl⟩
  | ok pm =>
    obtain ⟨patched, mappings⟩ := pm
    obtain ⟨_, _, h3⟩ := resolveConflicts_spec sectors patched mappings hres
    exact absurd hdup (h3 s hs hsr)

/-- C8 amended witness: when the disambiguated name Foo (1, 1) equals the
canonical name of another entry, the run raises the duplicate
disambiguated name error. -/
theorem C8_amended_duplicate_check_witness :
    resolveConflicts canonicalNameClashSectors =
      Except.error RErr.duplicateDisambiguatedName := by
  obtain ⟨e, he⟩ := C8_amended_duplicate_check canonicalNameClashSectors ⟨["Foo"], 1, 1, none⟩
    (by decide) (by decide) (by decide)
  have he2 := he
  rw [show resolveConflicts canonicalNameClashSectors =
      Except.error RErr.duplicateDisambiguatedName from rfl] at he2
  cases he2
  exact he

-- ## Lemmas for the pipeline write trace

theorem processEntry_writes_milieu (rd : RemoteData) (milieu : String)
    (nameMappings : List (String × String)) (sectorInfo : SectorInfo) :
    ∀ w ∈ (processEntry rd milieu nameMappings sectorInfo).1,
      ∃ name, w.path = MapPath.milieuFile milieu name := by
  unfold processEntry
  cases hn : sectorInfo.Names.head? with
  | none => simp
  | some canonicalName =>
    simp only []
    cases hstrip : _removeTimestampFromSector (rd.sector milieu sectorInfo.X sectorInfo.Y) with
    | none => simp
    | some sectorData =>
      simp only []
      cases hmd : rd.metadata milieu sectorInfo.X sectorInfo.Y with
      | none =>
        simp only []
        intro w hw
        simp only [List.mem_singleton] at hw
        subst hw
        exact ⟨_, rfl⟩
      | some metadata =>
        simp only []
        cases hval : metaValidate nameMappings canonicalName sectorInfo.X sectorInfo.Y metadata with
        | error e =>
          simp only []
          intro w hw
          simp only [List.mem_singleton] at hw
          subst hw
          exact ⟨_, rfl⟩
        | ok md =>
          simp only []
          intro w hw
          rcases List.mem_cons.mp hw with he | hw2
          · subst he
            exact ⟨_, rfl⟩
          · rcases List.mem_cons.mp hw2 with he | hw3
            · subst he
              exact ⟨_, rfl⟩
            · cases hw3

theorem processEntries_writes_milieu (rd : RemoteData) (milieu : String)
    (nameMappings : List (String × String)) :
    ∀ (sectors : List SectorInfo),
      ∀ w ∈ (processEntries rd milieu nameMappings sectors).1,
        ∃ name, w.path = MapPath.milieuFile milieu name := by
  intro sectors
  induction sectors with
  | nil => simp [processEntries]
  | cons s rest ih =>
    intro w hw
    rw [processEntries.eq_def] at hw
    simp only [] at hw
    cases he : (processEntry rd milieu nameMappings s).2 with
    | some e =>
      simp only [he] at hw
      exact processEntry_writes_milieu rd milieu nameMappings s w hw
    | none =>
      simp only [he] at hw
      rcases List.mem_append.mp hw with h1 | h2
      · exact processEntry_writes_milieu rd milieu nameMappings s w h1
      · exact ih w h2

theorem processMilieu_writes_milieu (rd : RemoteData) (milieu : String) :
    ∀ w ∈ (processMilieu rd milieu).1, ∃ name, w.path = MapPath.milieuFile milieu name := by
  unfold processMilieu
  cases hu : rd.universeDoc milieu with
  | malformed => simp
  | missingSectors => simp
  | withSectors sectors =>
    simp only []
    cases hrc : resolveConflicts sectors with
    | error e => simp
    | ok pm =>
      obtain ⟨patched, nameMappings⟩ := pm
      simp only []
      intro w hw
      rcases List.mem_cons.mp hw with he | hw2
      · subst he
        exact ⟨_, rfl⟩
      · exact processEntries_writes_milieu rd milieu nameMappings patched w hw2

theorem processMilieus_writes_milieu (rd : RemoteData) :
    ∀ (milieus : List String),
      ∀ w ∈ (processMilieus rd milieus).1, ∃ m name, w.path = MapPath.milieuFile m name := by
  intro milieus
  induction milieus with
  | nil => simp [processMilieus]
  | cons m rest ih =>
    intro w hw
    rw [processMilieus.eq_def] at hw
    simp only [] at hw
    cases he : (processMilieu rd m).2 with
    | some e =>
      simp only [he] at hw
      obtain ⟨name, hname⟩ := processMilieu_writes_milieu rd m w hw
      exact ⟨m, name, hname⟩
    | none =>
      simp only [he] at hw
      rcases List.mem_append.mp hw with h1 | h2
      · obtain ⟨name, hname⟩ := processMilieu_writes_milieu rd m w h1
        exact ⟨m, name, hname⟩
      · exact ih w h2

theorem no_marker_in_base_writes (rd : RemoteData) :
    ∀ w ∈ ([(⟨MapPath.top _SophontsFileName, rd.sophonts⟩ : FileWrite),
            ⟨MapPath.top _AllegiancesFileName, rd.allegiances⟩,
            ⟨MapPath.top _MainsFileName, rd.mains⟩] ++ (processMilieus rd _MilieuList).1),
      w.path ≠ MapPath.top _TimestampFileName ∧ w.path ≠ MapPath.top _DataFormatFileName := by
  intro w hw
  rcases List.mem_append.mp hw with h1 | h2
  · rcases List.mem_cons.mp h1 with he | h1b
    · subst he
      exact ⟨by simp [MapPath.top.injEq]; decide, by simp [MapPath.top.injEq]; decide⟩
    · rcases List.mem_cons.mp h1b with he | h1c
      · subst he
        exact ⟨by simp [MapPath.top.injEq]; decide, by simp [MapPath.top.injEq]; decide⟩
      · rcases List.mem_cons.mp h1c with he | h1d
        · subst he
          exact ⟨by simp [MapPath.top.injEq]; decide, by simp [MapPath.top.injEq]; decide⟩
        · cases h1d
  · obtain ⟨m, name, hname⟩ := processMilieus_writes_milieu rd _MilieuList w h2
    rw [hname]
    constructor
    · intro h
      cases h
    · intro h
      cases h

/-- C3: the timestamp marker and the format-version marker are written
only after both whole-tree integrity checks have passed: on every run
that ends with a fatal error, no write to either marker path occurs at
all, and on every run that ends without an error the write trace is the
base writes followed by exactly the two marker writes, where the base
tree passes the sanity check, every milieu directory holds at least the
configured minimum number of files, and no file of the base tree is
empty. -/
theorem C3_commit_gate (rd : RemoteData) (timestampText : String) :
    ((_downloadMapData rd timestampText).2.isSome = true →
      ∀ w ∈ (_downloadMapData rd timestampText).1,
        w.path ≠ MapPath.top _TimestampFileName ∧
        w.path ≠ MapPath.top _DataFormatFileName) ∧
    ((_downloadMapData rd timestampText).2 = none →
      ∃ base, (_downloadMapData rd timestampText).1 =
          base ++ [⟨MapPath.top _TimestampFileName, timestampText⟩,
                   ⟨MapPath.top _DataFormatFileName, _DataFormatVersion⟩] ∧
        sanityCheck base = none ∧
        (∀ m ∈ _MilieuList, _MinMilieuFiles ≤ milieuFileCount base m) ∧
        hasEmptyFile base = false) := by
  unfold _downloadMapData
  simp only []
  cases herr : (processMilieus rd _MilieuList).2 with
  | some e =>
    simp only []
    constructor
    · intro _ w hw
      exact no_marker_in_base_writes rd w hw
    · intro h
      cases h
  | none =>
    simp only []
    cases hsan : sanityCheck
        ([(⟨MapPath.top _SophontsFileName, rd.sophonts⟩ : FileWrite),
          ⟨MapPath.top _AllegiancesFileName, rd.allegiances⟩,
          ⟨MapPath.top _MainsFileName, rd.mains⟩] ++ (processMilieus rd _MilieuList).1) with
    | some e =>
      simp only []
      constructor
      · intro _ w hw
        exact no_marker_in_base_writes rd w hw
      · intro h
        cases h
    | none =>
      simp only []
      constructor
      · intro h
        cases h
      · intro _
        refine ⟨_, rfl, hsan, ?_, ?_⟩
        · intro m hm
          unfold sanityCheck at hsan
          by_cases hall : (_MilieuList.all (fun m => decide (_MinMilieuFiles ≤ milieuFileCount
              ([(⟨MapPath.top _SophontsFileName, rd.sophonts⟩ : FileWrite),
                ⟨MapPath.top _AllegiancesFileName, rd.allegiances⟩,
                ⟨MapPath.top _MainsFileName, rd.mains⟩] ++ (processMilieus rd _MilieuList).1) m))) = true
          · have := List.all_eq_true.mp hall m hm
            simpa using this
          · rw [if_neg (by simpa using hall)] at hsan
            cases hsan
        · unfold sanityCheck at hsan
          by_cases hall : (_MilieuList.all (fun m => decide (_MinMilieuFiles ≤ milieuFileCount
              ([(⟨MapPath.top _SophontsFileName, rd.sophonts⟩ : FileWrite),
                ⟨MapPath.top _AllegiancesFileName, rd.allegiances⟩,
                ⟨MapPath.top _MainsFileName, rd.mains⟩] ++ (processMilieus rd _MilieuList).1) m))) = true
          · rw [if_pos (by simpa using hall)] at hsan
            by_cases hemp : hasEmptyFile
                ([(⟨MapPath.top _SophontsFileName, rd.sophonts⟩ : FileWrite),
                  ⟨MapPath.top _AllegiancesFileName, rd.allegiances⟩,
                  ⟨MapPath.top _MainsFileName, rd.mains⟩] ++ (processMilieus rd _MilieuList).1) = true
            · rw [if_pos hemp] at hsan
              cases hsan
            · simpa using hemp
          · rw [if_neg (by simpa using hall)] at hsan
            cases hsan

/-- C3 witness: a run whose first universe document lacks the Sectors
collection aborts with a fatal error, and no write to the timestamp
marker path occurs. -/
theorem C3_commit_gate_witness :
    MapPath.top _TimestampFileName ∉
      ((_downloadMapData abortRemoteData "t").1.map (fun w => w.path)) := by
  have h := (C3_commit_gate abortRemoteData "t").1 (by rfl)
  intro hmem
  obtain ⟨w, hw, hwp⟩ := List.mem_map.mp hmem
  exact (h w hw).1 hwp
